import Mathlib

/-!
# Pipe: bootstrap and lifecycle orchestrator (`main.go`)

A shallow embedding of `main.go` of the Pipe blogging platform:

* the Go string functions used by `replaceServerConf`
  (`strings.Replace`, `strings.HasSuffix`, `strings.TrimSuffix`);
* an explicit file-system state with `ioutil.ReadFile`, `ioutil.WriteFile`
  and `filepath.Walk`;
* `replaceServerConf` as a state-passing function that also records the
  I/O calls it makes;
* `init`, `main` and the goroutine of `handleSignal` as effect traces.

A Go `string` is a finite sequence of bytes and is embedded as `List UInt8`.
-/

set_option maxRecDepth 100000

namespace Pipe

/-! ## Go strings -/

/-- A Go string: a finite sequence of bytes. -/
abbrev GoString := List UInt8

/-- The bytes of a string literal of the source (UTF-8, as Go stores it). -/
def bytes (s : String) : GoString := s.toUTF8.data.toList

/-- `strings.HasPrefix(s, prefix)`. -/
def HasPrefix (s pre : GoString) : Bool := pre.isPrefixOf s

/-- `strings.HasSuffix(s, suffix)`. -/
def HasSuffix (s suffix : GoString) : Bool := suffix.isSuffixOf s

/-- `strings.TrimSuffix(s, suffix)`: `s` without the trailing `suffix`, or `s`
itself when it does not end in `suffix`. -/
def TrimSuffix (s suffix : GoString) : GoString :=
  if HasSuffix s suffix then s.take (s.length - suffix.length) else s

/-- The scan behind `strings.Replace(s, old, new, -1)`. The first argument is the
number of bytes of a matched `old` that are still to be stepped over. Outside a
match, an occurrence of `old` starting at the current byte is replaced by `new`
and the scan resumes behind it; otherwise the byte is copied. -/
def replaceScan (old new : GoString) : Nat → GoString → GoString
  | _, [] => []
  | k + 1, _ :: s => replaceScan old new k s
  | 0, c :: s =>
    if old.isPrefixOf (c :: s) then new ++ replaceScan old new (old.length - 1) s
    else c :: replaceScan old new 0 s

/-- `strings.Replace(s, old, new, -1)` for a non-empty `old`: every
non-overlapping occurrence of `old`, taken from left to right, is replaced by
`new`. `replaceServerConf` calls it with three non-empty literals for `old`;
the rune-wise behaviour of Go for an empty `old` is outside this definition. -/
def Replace (s old new : GoString) : GoString := replaceScan old new 0 s

/-! ## Configuration and placeholders -/

/-- The fields of `model.Conf` read by `main.go`. -/
structure Conf where
  Server : GoString
  StaticServer : GoString
  StaticResourceVersion : GoString
  Port : GoString
  RuntimeMode : GoString
deriving DecidableEq

/-- The literal `"http://server.tpl.json"`. -/
def serverTpl : GoString := bytes "http://server.tpl.json"

/-- The literal `"http://staticserver.tpl.json"`. -/
def staticServerTpl : GoString := bytes "http://staticserver.tpl.json"

/-- The literal `"${StaticResourceVersion}"`. -/
def versionTpl : GoString := bytes "$\x7bStaticResourceVersion\x7d"

/-- The literal `".tpl"`. -/
def tplSuffix : GoString := bytes ".tpl"

/-- The literal `"theme/sw.min.js.tpl"`. -/
def swTplPath : GoString := bytes "theme/sw.min.js.tpl"

/-- The literal `"console/dist/"`. -/
def consoleDist : GoString := bytes "console/dist/"

/-- The three `strings.Replace` calls of lines 117-119, in source order. -/
def resolveSw (conf : Conf) (content : GoString) : GoString :=
  let content := Replace content serverTpl conf.Server
  let content := Replace content staticServerTpl conf.StaticServer
  let content := Replace content versionTpl conf.StaticResourceVersion
  content

/-- The two `strings.Replace` calls of lines 134-135, in source order. -/
def resolveConsole (conf : Conf) (content : GoString) : GoString :=
  let content := Replace content serverTpl conf.Server
  let content := Replace content staticServerTpl conf.StaticServer
  content

/-! ## File system -/

/-- What a path names: a regular file with its content, or a directory. -/
inductive Node where
  | file (data : GoString)
  | dir
deriving DecidableEq

/-- The file-system state seen by the process. `entries` maps clean paths
(relative to the working directory, no trailing slash) to nodes; the first
entry for a path is the one in force. The three lists name the paths on which
the environment makes `ReadFile`, `WriteFile`, or the `Lstat`/`ReadDir` of
`filepath.Walk` fail (permissions, I/O errors). -/
structure FS where
  entries : List (GoString × Node)
  readErr : List GoString
  writeErr : List GoString
  walkErr : List GoString
deriving DecidableEq

/-- The node bound to path `p`, if any. -/
def lookupEntry (p : GoString) : List (GoString × Node) → Option Node
  | [] => none
  | (q, n) :: es => if q = p then some n else lookupEntry p es

/-- Bind path `p` to node `n`: in place when `p` is bound, at the end otherwise. -/
def putEntry (p : GoString) (n : Node) : List (GoString × Node) → List (GoString × Node)
  | [] => [(p, n)]
  | (q, m) :: es => if q = p then (p, n) :: es else (q, m) :: putEntry p n es

/-- The node at path `p`. -/
def FS.lookup (fs : FS) (p : GoString) : Option Node := lookupEntry p fs.entries

/-- `os.Stat(p)`: a path with a trailing slash names a directory only. -/
def Stat (fs : FS) (p : GoString) : Option Node :=
  if p.getLast? = some 47 then
    match fs.lookup p.dropLast with
    | some Node.dir => some Node.dir
    | _ => none
  else fs.lookup p

/-- Modelled from the spec: `util.File.IsExist` of the repository's `util`
package is not part of the sources at hand; the spec calls it the existence
check of a target ("Check existence; if absent, skip"). -/
def IsExist (fs : FS) (p : GoString) : Bool := (Stat fs p).isSome

/-- `ioutil.ReadFile(p)`: the content of the regular file at `p`; `none` is a
non-nil error (no such file, a directory, or a failure of the environment). -/
def ReadFile (fs : FS) (p : GoString) : Option GoString :=
  if p ∈ fs.readErr then none
  else match Stat fs p with
    | some (Node.file d) => some d
    | _ => none

/-- `ioutil.WriteFile(p, data, perm)`: creates the file or truncates and
rewrites it; `none` is a non-nil error (the environment refuses, the path is
empty or has a trailing slash, or it names a directory). The permission bits
only matter to the operating system when the file is created and are not part
of the state. The directory of `p` is not looked up: `replaceServerConf` only
writes next to a file it has just read. -/
def WriteFile (fs : FS) (p data : GoString) (_perm : Nat) : Option FS :=
  if p ∈ fs.writeErr then none
  else if p = [] ∨ p.getLast? = some 47 then none
  else match fs.lookup p with
    | some Node.dir => none
    | _ => some { fs with entries := putEntry p (Node.file data) fs.entries }

/-- Rank of a byte in the order of `filepath.Walk`: the separator `/` sorts
before every byte of a name. -/
def rank (c : UInt8) : Nat := if c = 47 then 0 else c.toNat + 1

/-- The order in which `filepath.Walk` meets two paths of one tree: a directory
before what it contains, the names of one directory in byte order
(`sort.Strings`). -/
def walkLE : GoString → GoString → Bool
  | [], _ => true
  | _ :: _, [] => false
  | a :: as, b :: bs => decide (rank a < rank b) || (decide (rank a = rank b) && walkLE as bs)

/-- `walkLE` as a relation. -/
def WalkLE (a b : GoString) : Prop := walkLE a b = true

instance : DecidableRel WalkLE := fun a b => inferInstanceAs (Decidable (walkLE a b = true))

/-- The paths handed to the callback by `filepath.Walk(root, fn)`, in order:
`root` as given, then every path below it. -/
def walkPaths (fs : FS) (root : GoString) : List GoString :=
  root :: List.insertionSort WalkLE ((fs.entries.map Prod.fst).filter (fun p => HasPrefix p root))

/-! ## Effects of `replaceServerConf` -/

/-- The calls `replaceServerConf` makes to the outside, as they happen. -/
inductive Event where
  | readFile (path : GoString) (ok : Bool)
  | writeFile (path data : GoString) (perm : Nat) (ok : Bool)
  | walkFn (path : GoString) (err : Bool)
deriving DecidableEq

/-- How a piece of code ends: it returns a value, or the process is terminated
by `logger.Fatal`. -/
inductive Ctl (α : Type) where
  | ret (a : α)
  | fatal (msg : GoString)
deriving DecidableEq

/-- The file system left behind, the calls made, and how the code ended. -/
structure Res (α : Type) where
  fs : FS
  log : List Event
  ctl : Ctl α

/-- Modelled from the spec: `Logger.Fatal` of the repository's `log` package
is not part of the sources at hand; the spec has it log the diagnostic and
terminate the process ("any read or write failure is fatal", "fatal-log-and-exit").
Nothing after the call is executed. -/
def Fatal {α : Type} (fs : FS) (log : List Event) (msg : GoString) : Res α :=
  ⟨fs, log, Ctl.fatal msg⟩

/-- Lines 110-124: the fixed file `theme/sw.min.js.tpl`. -/
def replaceSw (conf : Conf) (fs : FS) : Res Unit :=
  let path := swTplPath
  if IsExist fs path then
    match ReadFile fs path with
    | none =>
      Fatal fs [Event.readFile path false]
        (bytes "read file [" ++ path ++ bytes "] failed: ")
    | some data =>
      let content := resolveSw conf data
      let writePath := TrimSuffix path tplSuffix
      match WriteFile fs writePath content 0o644 with
      | none =>
        Fatal fs [Event.readFile path true, Event.writeFile writePath content 0o644 false]
          (bytes "replace sw.min.js in [" ++ path ++ bytes "] failed: ")
      | some fs1 =>
        ⟨fs1, [Event.readFile path true, Event.writeFile writePath content 0o644 true],
          Ctl.ret ()⟩
  else ⟨fs, [], Ctl.ret ()⟩

/-- Lines 127-143: the callback given to `filepath.Walk`. `err` tells whether
`Walk` passes a non-nil error for `path`; the value returned is whether the
callback returns a non-nil error, which is that same `err`. -/
def walkFn (conf : Conf) (fs : FS) (path : GoString) (err : Bool) : Res Bool :=
  if HasSuffix path tplSuffix then
    match ReadFile fs path with
    | none =>
      Fatal fs [Event.walkFn path err, Event.readFile path false]
        (bytes "read file [" ++ path ++ bytes "] failed: ")
    | some data =>
      let content := resolveConsole conf data
      let writePath := TrimSuffix path tplSuffix
      match WriteFile fs writePath content 0o644 with
      | none =>
        Fatal fs [Event.walkFn path err, Event.readFile path true,
              Event.writeFile writePath content 0o644 false]
          (bytes "replace server conf in [" ++ writePath ++ bytes "] failed: ")
      | some fs1 =>
        ⟨fs1, [Event.walkFn path err, Event.readFile path true,
               Event.writeFile writePath content 0o644 true],
          Ctl.ret err⟩
  else ⟨fs, [Event.walkFn path err], Ctl.ret err⟩

/-- The loop of `filepath.Walk` over the paths still to visit: the callback
runs on each in turn and the first non-nil error it returns ends the walk. -/
def walkLoop (conf : Conf) : List GoString → FS → Res Bool
  | [], fs => ⟨fs, [], Ctl.ret false⟩
  | p :: ps, fs =>
    let r := walkFn conf fs p (decide (p ∈ fs.walkErr))
    match r.ctl with
    | Ctl.fatal msg => ⟨r.fs, r.log, Ctl.fatal msg⟩
    | Ctl.ret true => ⟨r.fs, r.log, Ctl.ret true⟩
    | Ctl.ret false =>
      let r2 := walkLoop conf ps r.fs
      ⟨r2.fs, r.log ++ r2.log, r2.ctl⟩

/-- `filepath.Walk(root, fn)` with the callback of `replaceServerConf`. The
names of a directory are read before the callback can write into it, so the
paths visited are those present when the walk starts. -/
def Walk (conf : Conf) (fs : FS) (root : GoString) : Res Bool :=
  walkLoop conf (walkPaths fs root) fs

/-- Lines 126-147: the walk over `console/dist/`. -/
def replaceConsole (conf : Conf) (fs : FS) : Res Unit :=
  if IsExist fs consoleDist then
    let r := Walk conf fs consoleDist
    match r.ctl with
    | Ctl.fatal msg => ⟨r.fs, r.log, Ctl.fatal msg⟩
    | Ctl.ret true =>
      Fatal r.fs r.log (bytes "replace server conf in [theme] failed: ")
    | Ctl.ret false => ⟨r.fs, r.log, Ctl.ret ()⟩
  else ⟨fs, [], Ctl.ret ()⟩

/-- The function `replaceServerConf` (lines 109-148). -/
def replaceServerConf (conf : Conf) (fs : FS) : Res Unit :=
  let r := replaceSw conf fs
  match r.ctl with
  | Ctl.fatal msg => ⟨r.fs, r.log, Ctl.fatal msg⟩
  | Ctl.ret _ =>
    let r2 := replaceConsole conf r.fs
    ⟨r2.fs, r.log ++ r2.log, r2.ctl⟩

/-! ## Occurrences and independence -/

/-- `t` occurs in `s` as a contiguous block. -/
def occurs (t s : GoString) : Bool := s.tails.any (fun w => t.isPrefixOf w)

/-- Some non-empty end of `a` is a beginning of `b`. -/
def overlaps (a b : GoString) : Bool := a.tails.any (fun w => !w.isEmpty && w.isPrefixOf b)

/-- A placeholder and a value do not interact: neither occurs in the other,
and no non-empty end of one is a beginning of the other. -/
def independent (tok val : GoString) : Bool :=
  !occurs tok val && !occurs val tok && !overlaps tok val && !overlaps val tok

/-! ## Reading the record of calls -/

/-- The path of the file or directory an event is about. -/
def Event.path : Event → GoString
  | Event.readFile p _ => p
  | Event.writeFile p _ _ _ => p
  | Event.walkFn p _ => p

/-- The call reported an error: a failed read or write, or a callback entered
with a non-nil error of the walk. -/
def Event.failed : Event → Bool
  | Event.readFile _ ok => !ok
  | Event.writeFile _ _ _ ok => !ok
  | Event.walkFn _ err => err

/-- The event is an entry into the callback of the walk. -/
def Event.isWalkFn : Event → Bool
  | Event.walkFn _ _ => true
  | _ => false


/-- No call in the record reported an error. -/
def calm (l : List Event) : Bool := l.all (fun e => !e.failed)

/-- After a call that reported an error the callback is not entered again, and
after a failed read or write no call follows at all. -/
def settled : List Event → Bool
  | [] => true
  | e :: l =>
    (!e.failed || (l.all (fun x => !x.isWalkFn) && (e.isWalkFn || l.isEmpty))) && settled l

/-! ## Sample configuration and file systems -/

/-- The configuration of the scenario in the specification. -/
def exConf : Conf :=
  { Server := bytes "http://example.com"
    StaticServer := bytes "http://static.example.com"
    StaticResourceVersion := bytes "v2"
    Port := bytes "8080"
    RuntimeMode := bytes "prod" }

/-- A configuration whose server address contains the server placeholder. -/
def echoConf : Conf :=
  { Server := bytes "http://server.tpl.json.example.com"
    StaticServer := bytes "http://static.example.com"
    StaticResourceVersion := bytes "v2"
    Port := bytes "8080"
    RuntimeMode := bytes "prod" }

/-- A deployment with the fixed template and one template below `console/dist/`. -/
def exFS : FS :=
  { entries :=
      [ (bytes "theme", Node.dir),
        (bytes "theme/sw.min.js.tpl", Node.file (bytes "fetch('http://server.tpl.json')")),
        (bytes "console", Node.dir),
        (bytes "console/dist", Node.dir),
        (bytes "console/dist/app.js.tpl",
          Node.file (bytes "api=http://server.tpl.json;v=$\x7bStaticResourceVersion\x7d")) ]
    readErr := []
    writeErr := []
    walkErr := [] }

/-- A deployment in which the resolved path of one template is itself a template. -/
def nestedFS : FS :=
  { entries :=
      [ (bytes "console", Node.dir),
        (bytes "console/dist", Node.dir),
        (bytes "console/dist/a.tpl", Node.file (bytes "x")),
        (bytes "console/dist/a.tpl.tpl", Node.file (bytes "y")) ]
    readErr := []
    writeErr := []
    walkErr := [] }

/-- A deployment with neither `theme/sw.min.js.tpl` nor `console/dist/`. -/
def bareFS : FS :=
  { entries := [ (bytes "theme", Node.dir), (bytes "pipe.json", Node.file (bytes "\x7b\x7d")) ]
    readErr := []
    writeErr := []
    walkErr := [] }

/-- A deployment in which the first template below `console/dist/` cannot be read. -/
def brokenFS : FS :=
  { entries :=
      [ (bytes "console", Node.dir),
        (bytes "console/dist", Node.dir),
        (bytes "console/dist/a.js.tpl", Node.file (bytes "http://server.tpl.json")),
        (bytes "console/dist/b.js.tpl", Node.file (bytes "http://server.tpl.json")) ]
    readErr := [bytes "console/dist/a.js.tpl"]
    writeErr := []
    walkErr := [] }

/-! ## The wording of the specification for the fixed file -/

/-- One pass over a text in which every occurrence of a placeholder is replaced
by its own value and every other byte is copied. `rules` pairs each placeholder
with its value; the first argument is the number of bytes of a matched
placeholder still to be stepped over. -/
def substituteScan (rules : List (GoString × GoString)) : Nat → GoString → GoString
  | _, [] => []
  | k + 1, _ :: s => substituteScan rules k s
  | 0, c :: s =>
    match rules.find? (fun r => r.1.isPrefixOf (c :: s)) with
    | some r => r.2 ++ substituteScan rules (r.1.length - 1) s
    | none => c :: substituteScan rules 0 s

/-- The pass of `substituteScan` from the start of the text. -/
def substitute (rules : List (GoString × GoString)) (s : GoString) : GoString :=
  substituteScan rules 0 s

/-- The resolved content as the specification words it, to be compared with
`resolveSw`: the template with every occurrence of `http://server.tpl.json`
replaced by `Conf.Server`, every occurrence of `http://staticserver.tpl.json`
by `Conf.StaticServer`, every occurrence of `${StaticResourceVersion}` by
`Conf.StaticResourceVersion`, and everything else unchanged. No two of the
three placeholders can overlap, so their occurrences in a template are disjoint. -/
def substitutePlaceholders (conf : Conf) (t : GoString) : GoString :=
  substitute
    [ (serverTpl, conf.Server),
      (staticServerTpl, conf.StaticServer),
      (versionTpl, conf.StaticResourceVersion) ] t

/-- A configuration whose server address is the static-server placeholder. -/
def swapConf : Conf :=
  { Server := bytes "http://staticserver.tpl.json"
    StaticServer := bytes "http://static.example.com"
    StaticResourceVersion := bytes "v2"
    Port := bytes "8080"
    RuntimeMode := bytes "prod" }

/-- A configuration with an empty server address. -/
def emptyServerConf : Conf :=
  { Server := []
    StaticServer := bytes "http://static.example.com"
    StaticResourceVersion := bytes "v2"
    Port := bytes "8080"
    RuntimeMode := bytes "prod" }

/-- A deployment whose fixed template has the server placeholder inside text
that is no placeholder. -/
def gluedFS : FS :=
  { entries :=
      [ (bytes "theme", Node.dir),
        (bytes "theme/sw.min.js.tpl",
          Node.file (bytes "http://statichttp://server.tpl.jsonserver.tpl.json")) ]
    readErr := []
    writeErr := []
    walkErr := [] }

/-! ## Boot and shutdown -/

/-- The errors `server.ListenAndServe` returns: `http.ErrServerClosed` once the
server was closed, or a failure to bind or serve. -/
inductive ServeErr where
  | ErrServerClosed
  | failed (msg : GoString)
deriving DecidableEq

/-- The method `Error()` of the error. -/
def ServeErr.Error : ServeErr → GoString
  | ServeErr.ErrServerClosed => bytes "http: Server closed"
  | ServeErr.failed msg => msg

/-- The signals registered by `signal.Notify` in `handleSignal`. -/
inductive Signal where
  | SIGINT
  | SIGQUIT
  | SIGTERM
deriving DecidableEq

/-- The text of a signal, as `%s` prints it. -/
def Signal.text : Signal → GoString
  | Signal.SIGINT => bytes "interrupt"
  | Signal.SIGQUIT => bytes "quit"
  | Signal.SIGTERM => bytes "terminated"

/-- The calls `init`, `main` and `handleSignal` make, in the order of the source. -/
inductive Call where
  | randSeed
  | logSetLevel (level : GoString)
  | logNewLogger
  | LoadConf
  | LoadMarkdown
  | i18nLoad
  | themeLoad
  | replaceServerConf
  | ginSetMode (debug : Bool)
  | ginDefaultWriter
  | ConnectDB
  | UpgradePerform
  | cronStart
  | MapRoutes
  | signalNotify (sigs : List Signal)
  | goSignalHandler
  | logInfof (msg : GoString)
  | ListenAndServe
  | logFatalf (msg : GoString)
  | serverClose
  | logErrorf (msg : GoString)
  | DisconnectDB
  | osExit (code : Nat)
deriving DecidableEq

/-- What the process meets while it boots: the configuration `model.LoadConf`
leaves in `model.Conf`, the file system, the calls during which the process is
terminated instead of returning (a fatal diagnostic inside `model.LoadConf`,
`service.ConnectDB` and so on), and the error `server.ListenAndServe` returns
(`none` for nil). -/
structure World where
  conf : Conf
  fs : FS
  stops : List Call
  serve : Option ServeErr

/-- How a function of `main.go` ends: it returns, or the process is
terminated while it runs (a fatal diagnostic, or an exit during a call that
does not return). -/
inductive Ending where
  | returned
  | exited
deriving DecidableEq

/-- The call does not return in world `w`: the process is terminated during
it, or, for `replaceServerConf`, the function ends in `logger.Fatal`. -/
def stopsAt (w : World) (c : Call) : Bool :=
  decide (c ∈ w.stops) ||
    (decide (c = Call.replaceServerConf) &&
      match (replaceServerConf w.conf w.fs).ctl with
      | Ctl.fatal _ => true
      | Ctl.ret _ => false)

/-- Straight-line code: the calls are made in order, up to the first one that
does not return. -/
def runCalls (w : World) : List Call → List Call × Ending
  | [] => ([], Ending.returned)
  | c :: cs =>
    if stopsAt w c then ([c], Ending.exited)
    else ((c :: (runCalls w cs).1), (runCalls w cs).2)

/-- The function `init` (lines 46-67). -/
def init (w : World) : List Call × Ending :=
  runCalls w
    [ Call.randSeed,
      Call.logSetLevel (bytes "warn"),
      Call.logNewLogger,
      Call.LoadConf,
      Call.LoadMarkdown,
      Call.i18nLoad,
      Call.themeLoad,
      Call.replaceServerConf,
      Call.ginSetMode (decide (bytes "dev" = w.conf.RuntimeMode)),
      Call.ginDefaultWriter ]

/-- The function `handleSignal` (lines 91-107) as seen from `main`: it
registers the three signals and starts the goroutine. -/
def handleSignal : List Call :=
  [ Call.signalNotify [Signal.SIGINT, Signal.SIGQUIT, Signal.SIGTERM],
    Call.goSignalHandler ]

/-- Modelled from the spec: `Logger.Fatalf` and `Logger.Fatal` of the
repository's `log` package are not part of the sources at hand; the spec has
them log the diagnostic and terminate the process with a non-zero status
("fatal-log-and-exit"). -/
def Fatalf (calls : List Call) (msg : GoString) : List Call × Ending :=
  (calls ++ [Call.logFatalf msg], Ending.exited)

/-- The function `main` (lines 70-88). -/
def main (w : World) : List Call × Ending :=
  let r := runCalls w
    ([ Call.ConnectDB,
       Call.UpgradePerform,
       Call.cronStart,
       Call.MapRoutes ] ++
     handleSignal ++
     [ Call.logInfof (bytes "Pipe (v%s) is running [%s]"),
       Call.ListenAndServe ])
  match r.2 with
  | Ending.exited => r
  | Ending.returned =>
    match w.serve with
    | some err => Fatalf r.1 (bytes "listen and serve failed: " ++ err.Error)
    | none => r

/-- The process from its start: `init` runs before `main`, and `main` only
when `init` returned. -/
def boot (w : World) : List Call × Ending :=
  match (init w).2 with
  | Ending.exited => init w
  | Ending.returned => ((init w).1 ++ (main w).1, (main w).2)

/-- The goroutine started by `handleSignal` (lines 95-106), in program order,
once signal `s` is received from the channel; `closeErr` is the error
returned by `server.Close()`. -/
def signalHandler (s : Signal) (closeErr : Option GoString) : List Call :=
  [ Call.logInfof (bytes "got signal [" ++ s.text ++ bytes "], exiting pipe now"),
    Call.serverClose ] ++
  (match closeErr with
   | some err => [Call.logErrorf (bytes "server close failed: " ++ err)]
   | none => []) ++
  [ Call.DisconnectDB,
    Call.logInfof (bytes "Pipe exited"),
    Call.osExit 0 ]

/-- Modelled from the spec: `service.DisconnectDB`, `Logger.Infof`,
`Logger.Errorf` and `Logger.Fatalf` are not part of the sources at hand; the
spec has the first three complete and return ("log but do not escalate",
"Call `Database.Disconnect()`") and the last terminate the process. `os.Exit`
terminates the process. -/
def terminates : Call → Bool
  | Call.osExit _ => true
  | Call.logFatalf _ => true
  | _ => false

/-- The calls of the process up to and including the first one that
terminates it. -/
def untilExit : List Call → List Call
  | [] => []
  | c :: cs => if terminates c then [c] else c :: untilExit cs

/-- What `main` still does once `server.ListenAndServe` has returned (lines
85-87): the calls of `main` behind `Call.ListenAndServe`. -/
def afterServe (w : World) : List Call :=
  ((main w).1.dropWhile (fun c => decide (c ≠ Call.ListenAndServe))).drop 1

/-- A world in which every call of the boot returns and the server is closed by
the shutdown goroutine, so that `ListenAndServe` returns `http.ErrServerClosed`. -/
def closedWorld : World :=
  { conf := exConf
    fs := exFS
    stops := []
    serve := some ServeErr.ErrServerClosed }

/-- The process from the arrival of signal `s` while `main` is blocked in
`server.ListenAndServe` (line 85). The goroutine of `handleSignal` runs up to
and including `server.Close()`; closing the server makes `ListenAndServe`
return `http.ErrServerClosed` to `main`, and from then on `main` and the
goroutine both run. `n` is the number of further calls the goroutine makes
before `main` goes on; the process ends with the first call that terminates it. -/
def shutdown (w : World) (s : Signal) (closeErr : Option GoString) (n : Nat) : List Call :=
  let g := signalHandler s closeErr
  let upToClose := g.takeWhile (fun c => decide (c ≠ Call.serverClose)) ++ [Call.serverClose]
  let behindClose := (g.dropWhile (fun c => decide (c ≠ Call.serverClose))).drop 1
  let m := afterServe { w with serve := some ServeErr.ErrServerClosed }
  untilExit (upToClose ++ behindClose.take n ++ m ++ behindClose.drop n)

/-! # Theorems -/

/-! ## Lemmas on `strings.Replace` -/

theorem occurs_iff (t s : GoString) : occurs t s = true ↔ t <:+: s := by
  unfold occurs
  rw [List.any_eq_true]
  constructor
  · rintro ⟨w, hw, hp⟩
    rw [List.mem_tails] at hw
    rw [List.isPrefixOf_iff_prefix] at hp
    exact List.infix_iff_prefix_suffix.mpr ⟨w, hp, hw⟩
  · intro h
    obtain ⟨w, hp, hw⟩ := List.infix_iff_prefix_suffix.mp h
    exact ⟨w, (List.mem_tails _ _).mpr hw, List.isPrefixOf_iff_prefix.mpr hp⟩

theorem overlaps_intro {a b w : GoString} (hw : w <:+ a) (hne : w ≠ []) (hp : w <+: b) :
    overlaps a b = true := by
  unfold overlaps
  rw [List.any_eq_true]
  refine ⟨w, (List.mem_tails _ _).mpr hw, ?_⟩
  simp [List.isPrefixOf_iff_prefix, hp, hne]

theorem replaceScan_drop (old new : GoString) (k : Nat) (s : GoString) :
    replaceScan old new k s = replaceScan old new 0 (s.drop k) := by
  induction s generalizing k with
  | nil => cases k <;> simp [replaceScan]
  | cons c s ih =>
    cases k with
    | zero => simp
    | succ k => simp only [replaceScan, List.drop_succ_cons]; exact ih k

theorem Replace_nil (old new : GoString) : Replace [] old new = [] := by
  simp [Replace, replaceScan]

theorem Replace_cons_hit {old new : GoString} (hne : old ≠ []) {c : UInt8} {s : GoString}
    (h : old <+: c :: s) :
    Replace (c :: s) old new = new ++ Replace ((c :: s).drop old.length) old new := by
  unfold Replace
  rw [replaceScan, if_pos (List.isPrefixOf_iff_prefix.mpr h), replaceScan_drop]
  cases old with
  | nil => exact absurd rfl hne
  | cons o os => simp

theorem Replace_cons_miss {old new : GoString} {c : UInt8} {s : GoString}
    (h : ¬ old <+: c :: s) :
    Replace (c :: s) old new = c :: Replace s old new := by
  unfold Replace
  rw [replaceScan, if_neg (fun hp => h (List.isPrefixOf_iff_prefix.mp hp))]

/-- Either `old` does not occur and the text is returned as it is, or the text
splits at the first occurrence. -/
theorem Replace_split {old : GoString} (new : GoString) (hne : old ≠ []) (s : GoString) :
    (¬ old <:+: s ∧ Replace s old new = s) ∨
    ∃ g s1, s = g ++ old ++ s1 ∧ ¬ old <:+: g ∧
      Replace s old new = g ++ new ++ Replace s1 old new := by
  induction s with
  | nil =>
    left
    refine ⟨?_, Replace_nil _ _⟩
    intro h
    exact hne (List.infix_nil.mp h)
  | cons c s ih =>
    by_cases hp : old <+: c :: s
    · right
      obtain ⟨r, hr⟩ := hp
      refine ⟨[], r, by simp [hr], ?_, ?_⟩
      · intro h; exact hne (List.infix_nil.mp h)
      · rw [Replace_cons_hit hne ⟨r, hr⟩, ← hr]
        simp
    · rw [Replace_cons_miss hp]
      rcases ih with ⟨hno, heq⟩ | ⟨g, s1, hs, hg, heq⟩
      · left
        refine ⟨?_, by rw [heq]⟩
        intro h
        rcases List.infix_cons_iff.mp h with h1 | h1
        · exact hp h1
        · exact hno h1
      · right
        refine ⟨c :: g, s1, by simp [hs], ?_, by simp [heq]⟩
        intro h
        rcases List.infix_cons_iff.mp h with h1 | h1
        · apply hp
          rw [hs]
          exact h1.trans ⟨old ++ s1, by simp⟩
        · exact hg h1

theorem independent_iff {tok val : GoString} : independent tok val = true ↔
    (¬ tok <:+: val) ∧ (¬ val <:+: tok) ∧ overlaps tok val = false ∧ overlaps val tok = false := by
  unfold independent
  simp only [Bool.and_eq_true, Bool.not_eq_true', ← occurs_iff, Bool.not_eq_true, and_assoc]

/-- No occurrence of `t` arises where an independent value is put between two
texts free of `t`. -/
theorem not_infix_sandwich {t v x y : GoString} (hi : independent t v = true)
    (hx : ¬ t <:+: x) (hy : ¬ t <:+: y) : ¬ t <:+: x ++ v ++ y := by
  obtain ⟨h1, h2, h3, h4⟩ := independent_iff.mp hi
  rintro ⟨a, b, hab⟩
  have hab2 : a ++ (t ++ b) = x ++ (v ++ y) := by simpa using hab
  rcases List.append_eq_append_iff.mp hab2 with ⟨a1, hx1, ht1⟩ | ⟨c1, ha1, hv1⟩
  · -- the occurrence starts inside `x`
    rcases List.append_eq_append_iff.mp ht1 with ⟨d, hd1, hd2⟩ | ⟨d, hd1, hd2⟩
    · -- a1 = t ++ d
      apply hx
      exact ⟨a, d, by rw [hx1, hd1]; simp⟩
    · -- t = a1 ++ d
      by_cases hdn : d = []
      · apply hx
        subst hdn
        exact ⟨a, [], by rw [hx1, hd1]; simp⟩
      · rcases List.append_eq_append_iff.mp hd2 with ⟨e, he1, he2⟩ | ⟨e, he1, he2⟩
        · -- d = v ++ e
          apply h2
          exact ⟨a1, e, by rw [hd1, he1]; simp⟩
        · -- v = d ++ e
          have : overlaps t v = true :=
            overlaps_intro ⟨a1, hd1.symm⟩ hdn ⟨e, he1.symm⟩
          rw [h3] at this
          exact Bool.false_ne_true this
  · -- the occurrence starts inside `v` or behind it
    rcases List.append_eq_append_iff.mp hv1 with ⟨f, hf1, hf2⟩ | ⟨f, hf1, hf2⟩
    · -- c1 = v ++ f
      apply hy
      exact ⟨f, b, by rw [hf2]; simp⟩
    · -- v = c1 ++ f
      by_cases hfn : f = []
      · apply hy
        subst hfn
        exact ⟨[], b, by simpa using hf2⟩
      · rcases List.append_eq_append_iff.mp hf2 with ⟨h, hh1, hh2⟩ | ⟨h, hh1, hh2⟩
        · -- f = t ++ h
          apply h1
          exact ⟨c1, h, by rw [hf1, hh1]; simp⟩
        · -- t = f ++ h
          have : overlaps v t = true := overlaps_intro ⟨c1, hf1.symm⟩ hfn ⟨h, hh1.symm⟩
          rw [h4] at this
          exact Bool.false_ne_true this

/-- Replacing `old` by a value independent of `t` leaves no occurrence of `t`,
provided every occurrence of `t` in the text lay inside a block containing `old`. -/
theorem not_infix_Replace {t old new : GoString} (hne : old ≠ [])
    (hi : independent t new = true) :
    ∀ (n : Nat) (s : GoString), s.length ≤ n →
      (∀ u, u <:+: s → t <:+: u → old <:+: u) → ¬ t <:+: Replace s old new := by
  intro n
  induction n with
  | zero =>
    intro s hs _
    have : s = [] := List.length_eq_zero.mp (Nat.le_zero.mp hs)
    subst this
    rw [Replace_nil]
    intro h
    have ht : t = [] := List.infix_nil.mp h
    obtain ⟨h1, _, _, _⟩ := independent_iff.mp hi
    apply h1
    rw [ht]
    exact ⟨[], new, by simp⟩
  | succ n ih =>
    intro s hs hcov
    rcases Replace_split new hne s with ⟨hno, heq⟩ | ⟨g, s1, hsplit, hg, heq⟩
    · rw [heq]
      intro h
      exact hno (hcov s List.infix_rfl h)
    · rw [heq]
      apply not_infix_sandwich hi
      · intro h
        apply hg
        apply hcov g _ h
        rw [hsplit]
        exact ⟨[], old ++ s1, by simp⟩
      · apply ih
        · have hl : s.length = g.length + old.length + s1.length := by
            rw [hsplit]; simp [Nat.add_assoc]
          have : 0 < old.length := List.length_pos.mpr hne
          omega
        · intro u hu htu
          apply hcov u _ htu
          rw [hsplit]
          exact hu.trans ⟨g ++ old, [], by simp⟩

/-- The replaced token is gone when its value is independent of it. -/
theorem not_infix_Replace_self {old new : GoString} (hne : old ≠ [])
    (hi : independent old new = true) (s : GoString) : ¬ old <:+: Replace s old new :=
  not_infix_Replace hne hi s.length s le_rfl (fun _ _ h => h)

/-- A token absent from the text stays absent when another one is replaced by
a value independent of it. -/
theorem not_infix_Replace_other {t old new : GoString} (hne : old ≠ [])
    (hi : independent t new = true) {s : GoString} (hs : ¬ t <:+: s) :
    ¬ t <:+: Replace s old new :=
  not_infix_Replace hne hi s.length s le_rfl
    (fun _ hu htu => absurd (htu.trans hu) hs)

/-! ## Lemmas on paths -/

theorem HasSuffix_iff {s x : GoString} : HasSuffix s x = true ↔ x <:+ s := by
  unfold HasSuffix
  exact List.isSuffixOf_iff_suffix

theorem HasPrefix_iff {s x : GoString} : HasPrefix s x = true ↔ x <+: s := by
  unfold HasPrefix
  exact List.isPrefixOf_iff_prefix

theorem TrimSuffix_append {s x : GoString} (h : HasSuffix s x = true) :
    TrimSuffix s x ++ x = s := by
  unfold TrimSuffix
  rw [if_pos h]
  obtain ⟨a, rfl⟩ := HasSuffix_iff.mp h
  simp

theorem TrimSuffix_inj {p q x : GoString} (hp : HasSuffix p x = true) (hq : HasSuffix q x = true)
    (h : TrimSuffix p x = TrimSuffix q x) : p = q := by
  rw [← TrimSuffix_append hp, ← TrimSuffix_append hq, h]

theorem tplSuffix_eq : tplSuffix = [46, 116, 112, 108] := by decide

/-- A template below `console/dist/` is written next to itself: its resolved
path is below `console/dist/` too. -/
theorem consoleDist_prefix_TrimSuffix {p : GoString} (hp : HasPrefix p consoleDist = true)
    (hs : HasSuffix p tplSuffix = true) : HasPrefix (TrimSuffix p tplSuffix) consoleDist = true := by
  rw [HasPrefix_iff] at hp ⊢
  obtain ⟨r, hr⟩ := hp
  have hq := TrimSuffix_append hs
  generalize TrimSuffix p tplSuffix = q at hq
  rw [← hr] at hq
  rcases List.append_eq_append_iff.mp hq with ⟨a, ha, _⟩ | ⟨c, hc, _⟩
  · -- the suffix would have to begin within `console/dist/`
    rename_i hb
    cases a with
    | nil => exact ⟨[], by simpa using ha⟩
    | cons x xs =>
      exfalso
      have hx : x = 46 := by
        rw [tplSuffix_eq] at hb
        simp only [List.cons_append, List.cons.injEq] at hb
        exact hb.1.symm
      have hmem : (46 : UInt8) ∈ consoleDist := by
        rw [ha, hx]
        simp
      revert hmem
      decide
  · exact ⟨c, hc.symm⟩



/-- The fixed artifact `theme/sw.min.js`. -/
theorem TrimSuffix_swTplPath : TrimSuffix swTplPath tplSuffix = bytes "theme/sw.min.js" := by
  decide

theorem WalkLE_total (a b : GoString) : WalkLE a b ∨ WalkLE b a := by
  unfold WalkLE
  induction a generalizing b with
  | nil => left; rfl
  | cons c s ih =>
    cases b with
    | nil => right; rfl
    | cons d t =>
      simp only [walkLE, Bool.or_eq_true, Bool.and_eq_true, decide_eq_true_eq]
      rcases Nat.lt_trichotomy (rank c) (rank d) with h | h | h
      · left; left; exact h
      · rcases ih t with h2 | h2
        · left; right; exact ⟨h, h2⟩
        · right; right; exact ⟨h.symm, h2⟩
      · right; left; exact h

theorem WalkLE_trans {a b c : GoString} (hab : WalkLE a b) (hbc : WalkLE b c) : WalkLE a c := by
  unfold WalkLE at *
  induction a generalizing b c with
  | nil => rfl
  | cons x s ih =>
    cases b with
    | nil => simp [walkLE] at hab
    | cons y t =>
      cases c with
      | nil => simp [walkLE] at hbc
      | cons z u =>
        simp only [walkLE, Bool.or_eq_true, Bool.and_eq_true, decide_eq_true_eq] at *
        rcases hab with h1 | ⟨h1, h1r⟩
        · rcases hbc with h2 | ⟨h2, _⟩
          · left; omega
          · left; omega
        · rcases hbc with h2 | ⟨h2, h2r⟩
          · left; omega
          · right; exact ⟨by omega, ih h1r h2r⟩

instance : IsTotal GoString WalkLE := ⟨WalkLE_total⟩

instance : IsTrans GoString WalkLE := ⟨fun _ _ _ => WalkLE_trans⟩

/-- A path never comes before one of its proper beginnings. -/
theorem not_WalkLE_append (a : GoString) {x : GoString} (hx : x ≠ []) : ¬ WalkLE (a ++ x) a := by
  unfold WalkLE
  induction a with
  | nil =>
    cases x with
    | nil => exact absurd rfl hx
    | cons c s => simp [walkLE]
  | cons c s ih =>
    simp only [List.cons_append, walkLE, Bool.or_eq_true, Bool.and_eq_true, decide_eq_true_eq]
    rintro (h | ⟨_, h⟩)
    · omega
    · exact ih h

/-- The walk meets a template after the path its resolved artifact is written to. -/
theorem TrimSuffix_ne_of_WalkLE {p q : GoString} (hp : HasSuffix p tplSuffix = true)
    (h : WalkLE p q) : TrimSuffix p tplSuffix ≠ q := by
  intro heq
  have hp2 := TrimSuffix_append hp
  rw [heq] at hp2
  rw [← hp2] at h
  exact not_WalkLE_append q (by decide) h

theorem walkPaths_sorted (fs : FS) (root : GoString) :
    List.Pairwise WalkLE (walkPaths fs root).tail := by
  unfold walkPaths
  exact List.sorted_insertionSort WalkLE _

theorem mem_walkPaths {fs : FS} {root p : GoString} :
    p ∈ walkPaths fs root ↔
      p = root ∨ (p ∈ fs.entries.map Prod.fst ∧ HasPrefix p root = true) := by
  unfold walkPaths
  rw [List.mem_cons, List.mem_insertionSort, List.mem_filter]

/-! ## Lemmas on the file system -/

theorem lookupEntry_putEntry_same (p : GoString) (n : Node) (es : List (GoString × Node)) :
    lookupEntry p (putEntry p n es) = some n := by
  induction es with
  | nil => simp [putEntry, lookupEntry]
  | cons e es ih =>
    obtain ⟨q, m⟩ := e
    by_cases h : q = p
    · simp [putEntry, lookupEntry, h]
    · simp [putEntry, lookupEntry, h, ih]

theorem lookupEntry_putEntry_ne {p q : GoString} (h : p ≠ q) (n : Node)
    (es : List (GoString × Node)) :
    lookupEntry q (putEntry p n es) = lookupEntry q es := by
  induction es with
  | nil => simp [putEntry, lookupEntry, h]
  | cons e es ih =>
    obtain ⟨r, m⟩ := e
    by_cases hr : r = p
    · subst hr
      simp [putEntry, lookupEntry, h]
    · by_cases hq : r = q
      · subst hq
        simp [putEntry, lookupEntry, hr]
      · simp [putEntry, lookupEntry, hr, hq, ih]

theorem putEntry_of_lookupEntry {p : GoString} {n : Node} {es : List (GoString × Node)}
    (h : lookupEntry p es = some n) : putEntry p n es = es := by
  induction es with
  | nil => simp [lookupEntry] at h
  | cons e es ih =>
    obtain ⟨q, m⟩ := e
    by_cases hq : q = p
    · subst hq
      simp [lookupEntry] at h
      simp [putEntry, h]
    · simp [lookupEntry, hq] at h
      simp [putEntry, hq, ih h]

theorem keys_putEntry (p : GoString) (n : Node) (es : List (GoString × Node)) (q : GoString) :
    q ∈ (putEntry p n es).map Prod.fst ↔ q = p ∨ q ∈ es.map Prod.fst := by
  induction es with
  | nil => simp [putEntry]
  | cons e es ih =>
    obtain ⟨r, m⟩ := e
    by_cases hr : r = p
    · subst hr
      simp [putEntry]
    · simp only [putEntry, hr, if_false, List.map_cons, List.mem_cons, ih]
      tauto

theorem ReadFile_some {fs : FS} {p d : GoString} (h : ReadFile fs p = some d) :
    fs.lookup p = some (Node.file d) := by
  unfold ReadFile at h
  split at h
  · simp at h
  · split at h
    · rename_i heq
      simp only [Option.some.injEq] at h
      subst h
      unfold Stat at heq
      split at heq
      · split at heq <;> simp at heq
      · exact heq
    · simp at h

/-- What a successful `WriteFile` leaves behind. -/
theorem WriteFile_some {fs fs1 : FS} {p d : GoString} {perm : Nat}
    (h : WriteFile fs p d perm = some fs1) :
    fs1 = { fs with entries := putEntry p (Node.file d) fs.entries } := by
  unfold WriteFile at h
  split at h
  · simp at h
  · split at h
    · simp at h
    · split at h
      · simp at h
      · simp only [Option.some.injEq] at h
        exact h.symm

theorem WriteFile_lookup_same {fs fs1 : FS} {p d : GoString} {perm : Nat}
    (h : WriteFile fs p d perm = some fs1) : fs1.lookup p = some (Node.file d) := by
  rw [WriteFile_some h]
  exact lookupEntry_putEntry_same _ _ _

theorem WriteFile_lookup_ne {fs fs1 : FS} {p d : GoString} {perm : Nat}
    (h : WriteFile fs p d perm = some fs1) {q : GoString} (hq : p ≠ q) :
    fs1.lookup q = fs.lookup q := by
  rw [WriteFile_some h]
  exact lookupEntry_putEntry_ne hq _ _

theorem WriteFile_noop {fs fs1 : FS} {p d : GoString} {perm : Nat}
    (h : WriteFile fs p d perm = some fs1) (hl : fs.lookup p = some (Node.file d)) :
    fs1 = fs := by
  rw [WriteFile_some h]
  unfold FS.lookup at hl
  rw [putEntry_of_lookupEntry hl]

theorem WriteFile_keys {fs fs1 : FS} {p d : GoString} {perm : Nat}
    (h : WriteFile fs p d perm = some fs1) (q : GoString) :
    q ∈ fs1.entries.map Prod.fst ↔ q = p ∨ q ∈ fs.entries.map Prod.fst := by
  rw [WriteFile_some h]
  exact keys_putEntry _ _ _ _

/-- The four ways through the callback of the walk. -/
theorem walkFn_cases (conf : Conf) (fs : FS) (p : GoString) (err : Bool) :
    (HasSuffix p tplSuffix = false ∧
      walkFn conf fs p err = ⟨fs, [Event.walkFn p err], Ctl.ret err⟩) ∨
    (HasSuffix p tplSuffix = true ∧ ReadFile fs p = none ∧
      walkFn conf fs p err = ⟨fs, [Event.walkFn p err, Event.readFile p false],
        Ctl.fatal (bytes "read file [" ++ p ++ bytes "] failed: ")⟩) ∨
    (∃ d, HasSuffix p tplSuffix = true ∧ ReadFile fs p = some d ∧
      WriteFile fs (TrimSuffix p tplSuffix) (resolveConsole conf d) 0o644 = none ∧
      walkFn conf fs p err = ⟨fs, [Event.walkFn p err, Event.readFile p true,
          Event.writeFile (TrimSuffix p tplSuffix) (resolveConsole conf d) 0o644 false],
        Ctl.fatal (bytes "replace server conf in [" ++ TrimSuffix p tplSuffix
          ++ bytes "] failed: ")⟩) ∨
    (∃ d fs1, HasSuffix p tplSuffix = true ∧ ReadFile fs p = some d ∧
      WriteFile fs (TrimSuffix p tplSuffix) (resolveConsole conf d) 0o644 = some fs1 ∧
      walkFn conf fs p err = ⟨fs1, [Event.walkFn p err, Event.readFile p true,
          Event.writeFile (TrimSuffix p tplSuffix) (resolveConsole conf d) 0o644 true],
        Ctl.ret err⟩) := by
  unfold walkFn
  cases hs : HasSuffix p tplSuffix with
  | false => left; simp
  | true =>
    right
    cases hr : ReadFile fs p with
    | none => left; simp [Fatal]
    | some d =>
      right
      cases hw : WriteFile fs (TrimSuffix p tplSuffix) (resolveConsole conf d) 0o644 with
      | none => left; exact ⟨d, by simp [hw, Fatal]⟩
      | some fs1 => right; exact ⟨d, fs1, by simp [hw]⟩

/-- The callback leaves the file system as it is or writes one resolved artifact. -/
theorem walkFn_fs (conf : Conf) (fs : FS) (p : GoString) (err : Bool) :
    (walkFn conf fs p err).fs = fs ∨
    (HasSuffix p tplSuffix = true ∧ ∃ d, ReadFile fs p = some d ∧
      WriteFile fs (TrimSuffix p tplSuffix) (resolveConsole conf d) 0o644
        = some (walkFn conf fs p err).fs) := by
  rcases walkFn_cases conf fs p err with ⟨_, h⟩ | ⟨_, _, h⟩ | ⟨d, _, _, _, h⟩ | ⟨d, fs1, hs, hr, hw, h⟩
  · left; rw [h]
  · left; rw [h]
  · left; rw [h]
  · right; rw [h]; exact ⟨hs, d, hr, hw⟩

theorem walkFn_lookup (conf : Conf) (fs : FS) (p : GoString) (err : Bool) {q : GoString}
    (h : HasSuffix p tplSuffix = true → TrimSuffix p tplSuffix ≠ q) :
    (walkFn conf fs p err).fs.lookup q = fs.lookup q := by
  rcases walkFn_fs conf fs p err with h1 | ⟨hs, d, _, hw⟩
  · rw [h1]
  · exact WriteFile_lookup_ne hw (h hs)

theorem walkFn_keys (conf : Conf) (fs : FS) (p : GoString) (err : Bool) (q : GoString) :
    q ∈ (walkFn conf fs p err).fs.entries.map Prod.fst →
      q ∈ fs.entries.map Prod.fst ∨
        (HasSuffix p tplSuffix = true ∧ q = TrimSuffix p tplSuffix) := by
  intro hq
  rcases walkFn_fs conf fs p err with h1 | ⟨hs, d, _, hw⟩
  · left; rw [h1] at hq; exact hq
  · rcases (WriteFile_keys hw q).mp hq with h2 | h2
    · right; exact ⟨hs, h2⟩
    · left; exact h2

/-- The file system the walk leaves behind, by the way the callback ended. -/
theorem walkLoop_fs_cons (conf : Conf) (p : GoString) (ps : List GoString) (fs : FS) :
    (walkLoop conf (p :: ps) fs).fs = (walkFn conf fs p (decide (p ∈ fs.walkErr))).fs ∨
    (walkLoop conf (p :: ps) fs).fs =
      (walkLoop conf ps (walkFn conf fs p (decide (p ∈ fs.walkErr))).fs).fs := by
  simp only [walkLoop]
  split
  · left; rfl
  · left; rfl
  · right; rfl

/-- Frame of the walk: a path that is not the resolved path of a visited
template keeps its node. -/
theorem walkLoop_lookup (conf : Conf) (l : List GoString) (fs : FS) (q : GoString)
    (h : ∀ p ∈ l, HasSuffix p tplSuffix = true → TrimSuffix p tplSuffix ≠ q) :
    (walkLoop conf l fs).fs.lookup q = fs.lookup q := by
  induction l generalizing fs with
  | nil => rfl
  | cons p ps ih =>
    have hp := walkFn_lookup conf fs p (decide (p ∈ fs.walkErr)) (h p (List.mem_cons_self _ _))
    rcases walkLoop_fs_cons conf p ps fs with h1 | h1
    · rw [h1, hp]
    · rw [h1, ih _ (fun r hr => h r (List.mem_cons_of_mem _ hr)), hp]

/-- The walk only adds the resolved paths of visited templates. -/
theorem walkLoop_keys (conf : Conf) (l : List GoString) (fs : FS) (q : GoString) :
    q ∈ (walkLoop conf l fs).fs.entries.map Prod.fst →
      q ∈ fs.entries.map Prod.fst ∨
        ∃ p ∈ l, HasSuffix p tplSuffix = true ∧ q = TrimSuffix p tplSuffix := by
  induction l generalizing fs with
  | nil => intro h; left; exact h
  | cons p ps ih =>
    intro hq
    have hstep := walkFn_keys conf fs p (decide (p ∈ fs.walkErr)) q
    rcases walkLoop_fs_cons conf p ps fs with h1 | h1
    · rw [h1] at hq
      rcases hstep hq with h2 | ⟨hs, h2⟩
      · left; exact h2
      · right; exact ⟨p, List.mem_cons_self _ _, hs, h2⟩
    · rw [h1] at hq
      rcases ih _ hq with h2 | ⟨r, hr, hs, h2⟩
      · rcases hstep h2 with h3 | ⟨hs, h3⟩
        · left; exact h3
        · right; exact ⟨p, List.mem_cons_self _ _, hs, h3⟩
      · right; exact ⟨r, List.mem_cons_of_mem _ hr, hs, h2⟩

/-- Every call made by the callback is about the visited path or its resolved path;
a write carries the two-placeholder resolution of some content and mode 0644. -/
theorem walkFn_log (conf : Conf) (fs : FS) (p : GoString) (err : Bool) :
    ∀ e ∈ (walkFn conf fs p err).log,
      e = Event.walkFn p err ∨ (HasSuffix p tplSuffix = true ∧ ((∃ ok, e = Event.readFile p ok) ∨
        ∃ d ok, ReadFile fs p = some d ∧
          e = Event.writeFile (TrimSuffix p tplSuffix) (resolveConsole conf d) 0o644 ok)) := by
  intro e he
  rcases walkFn_cases conf fs p err with ⟨_, h⟩ | ⟨hs, _, h⟩ | ⟨d, hs, hr, _, h⟩ |
    ⟨d, fs1, hs, hr, _, h⟩
  · rw [h] at he
    simp only [List.mem_singleton] at he
    left; exact he
  · rw [h] at he
    simp only [List.mem_cons, List.mem_singleton, List.not_mem_nil, or_false] at he
    rcases he with he | he
    · left; exact he
    · right; exact ⟨hs, Or.inl ⟨false, he⟩⟩
  · rw [h] at he
    simp only [List.mem_cons, List.mem_singleton, List.not_mem_nil, or_false] at he
    rcases he with he | he | he
    · left; exact he
    · right; exact ⟨hs, Or.inl ⟨true, he⟩⟩
    · right; exact ⟨hs, Or.inr ⟨d, false, hr, he⟩⟩
  · rw [h] at he
    simp only [List.mem_cons, List.mem_singleton, List.not_mem_nil, or_false] at he
    rcases he with he | he | he
    · left; exact he
    · right; exact ⟨hs, Or.inl ⟨true, he⟩⟩
    · right; exact ⟨hs, Or.inr ⟨d, true, hr, he⟩⟩

/-- The calls of the walk, by the way the callback ended on the first path. -/
theorem walkLoop_log_cons (conf : Conf) (p : GoString) (ps : List GoString) (fs : FS) :
    (walkLoop conf (p :: ps) fs).log = (walkFn conf fs p (decide (p ∈ fs.walkErr))).log ∨
    (walkLoop conf (p :: ps) fs).log =
      (walkFn conf fs p (decide (p ∈ fs.walkErr))).log ++
      (walkLoop conf ps (walkFn conf fs p (decide (p ∈ fs.walkErr))).fs).log := by
  simp only [walkLoop]
  split
  · left; rfl
  · left; rfl
  · right; rfl

theorem walkLoop_log (conf : Conf) (l : List GoString) (fs : FS) :
    ∀ e ∈ (walkLoop conf l fs).log, ∃ p ∈ l,
      (∃ err, e = Event.walkFn p err) ∨ (HasSuffix p tplSuffix = true ∧
        ((∃ ok, e = Event.readFile p ok) ∨
        ∃ d ok, e = Event.writeFile (TrimSuffix p tplSuffix) (resolveConsole conf d) 0o644 ok)) := by
  induction l generalizing fs with
  | nil => intro e he; simp [walkLoop] at he
  | cons p ps ih =>
    intro e he
    have hstep : e ∈ (walkFn conf fs p (decide (p ∈ fs.walkErr))).log → ∃ r ∈ p :: ps,
      (∃ err, e = Event.walkFn r err) ∨ (HasSuffix r tplSuffix = true ∧
        ((∃ ok, e = Event.readFile r ok) ∨
        ∃ d ok, e = Event.writeFile (TrimSuffix r tplSuffix) (resolveConsole conf d) 0o644 ok)) := by
      intro h1
      refine ⟨p, List.mem_cons_self _ _, ?_⟩
      rcases walkFn_log conf fs p _ e h1 with h2 | ⟨hs, h2 | ⟨d, ok, _, h2⟩⟩
      · left; exact ⟨_, h2⟩
      · right; exact ⟨hs, Or.inl h2⟩
      · right; exact ⟨hs, Or.inr ⟨d, ok, h2⟩⟩
    rcases walkLoop_log_cons conf p ps fs with h1 | h1
    · rw [h1] at he
      exact hstep he
    · rw [h1, List.mem_append] at he
      rcases he with he | he
      · exact hstep he
      · obtain ⟨r, hr, h2⟩ := ih _ e he
        exact ⟨r, List.mem_cons_of_mem _ hr, h2⟩

/-! ## The two halves of `replaceServerConf` -/

/-- The four ways through the block of the fixed file. -/
theorem replaceSw_cases (conf : Conf) (fs : FS) :
    (IsExist fs swTplPath = false ∧ replaceSw conf fs = ⟨fs, [], Ctl.ret ()⟩) ∨
    (IsExist fs swTplPath = true ∧ ReadFile fs swTplPath = none ∧
      replaceSw conf fs = ⟨fs, [Event.readFile swTplPath false],
        Ctl.fatal (bytes "read file [" ++ swTplPath ++ bytes "] failed: ")⟩) ∨
    (∃ d, IsExist fs swTplPath = true ∧ ReadFile fs swTplPath = some d ∧
      WriteFile fs (TrimSuffix swTplPath tplSuffix) (resolveSw conf d) 0o644 = none ∧
      replaceSw conf fs = ⟨fs, [Event.readFile swTplPath true,
          Event.writeFile (TrimSuffix swTplPath tplSuffix) (resolveSw conf d) 0o644 false],
        Ctl.fatal (bytes "replace sw.min.js in [" ++ swTplPath ++ bytes "] failed: ")⟩) ∨
    (∃ d fs1, IsExist fs swTplPath = true ∧ ReadFile fs swTplPath = some d ∧
      WriteFile fs (TrimSuffix swTplPath tplSuffix) (resolveSw conf d) 0o644 = some fs1 ∧
      replaceSw conf fs = ⟨fs1, [Event.readFile swTplPath true,
          Event.writeFile (TrimSuffix swTplPath tplSuffix) (resolveSw conf d) 0o644 true],
        Ctl.ret ()⟩) := by
  unfold replaceSw
  simp only []
  cases hs : IsExist fs swTplPath with
  | false => left; simp
  | true =>
    right
    cases hr : ReadFile fs swTplPath with
    | none => left; simp [Fatal]
    | some d =>
      right
      cases hw : WriteFile fs (TrimSuffix swTplPath tplSuffix) (resolveSw conf d) 0o644 with
      | none => left; exact ⟨d, by simp [hw, Fatal]⟩
      | some fs1 => right; exact ⟨d, fs1, by simp [hw]⟩

theorem replaceSw_fs (conf : Conf) (fs : FS) :
    (replaceSw conf fs).fs = fs ∨
    ∃ d, ReadFile fs swTplPath = some d ∧
      WriteFile fs (TrimSuffix swTplPath tplSuffix) (resolveSw conf d) 0o644
        = some (replaceSw conf fs).fs := by
  rcases replaceSw_cases conf fs with ⟨_, h⟩ | ⟨_, _, h⟩ | ⟨d, _, _, _, h⟩ | ⟨d, fs1, _, hr, hw, h⟩
  · left; rw [h]
  · left; rw [h]
  · left; rw [h]
  · right; rw [h]; exact ⟨d, hr, hw⟩

theorem replaceSw_lookup (conf : Conf) (fs : FS) {q : GoString}
    (hq : q ≠ TrimSuffix swTplPath tplSuffix) : (replaceSw conf fs).fs.lookup q = fs.lookup q := by
  rcases replaceSw_fs conf fs with h | ⟨d, _, hw⟩
  · rw [h]
  · exact WriteFile_lookup_ne hw (Ne.symm hq)

theorem replaceSw_keys (conf : Conf) (fs : FS) (q : GoString) :
    q ∈ (replaceSw conf fs).fs.entries.map Prod.fst →
      q = TrimSuffix swTplPath tplSuffix ∨ q ∈ fs.entries.map Prod.fst := by
  intro hq
  rcases replaceSw_fs conf fs with h | ⟨d, _, hw⟩
  · right; rw [h] at hq; exact hq
  · exact (WriteFile_keys hw q).mp hq

theorem replaceSw_keys_mono (conf : Conf) (fs : FS) (q : GoString) :
    q ∈ fs.entries.map Prod.fst → q ∈ (replaceSw conf fs).fs.entries.map Prod.fst := by
  intro hq
  rcases replaceSw_fs conf fs with h | ⟨d, _, hw⟩
  · rw [h]; exact hq
  · exact (WriteFile_keys hw q).mpr (Or.inr hq)

theorem replaceSw_log (conf : Conf) (fs : FS) :
    ∀ e ∈ (replaceSw conf fs).log, IsExist fs swTplPath = true ∧
      ((∃ ok, e = Event.readFile swTplPath ok) ∨
       ∃ d ok, ReadFile fs swTplPath = some d ∧
        e = Event.writeFile (TrimSuffix swTplPath tplSuffix) (resolveSw conf d) 0o644 ok) := by
  intro e he
  rcases replaceSw_cases conf fs with ⟨_, h⟩ | ⟨hs, _, h⟩ | ⟨d, hs, hr, _, h⟩ |
    ⟨d, fs1, hs, hr, _, h⟩
  · rw [h] at he; simp at he
  · rw [h] at he
    simp only [List.mem_singleton] at he
    exact ⟨hs, Or.inl ⟨false, he⟩⟩
  · rw [h] at he
    simp only [List.mem_cons, List.mem_singleton, List.not_mem_nil, or_false] at he
    rcases he with he | he
    · exact ⟨hs, Or.inl ⟨true, he⟩⟩
    · exact ⟨hs, Or.inr ⟨d, false, hr, he⟩⟩
  · rw [h] at he
    simp only [List.mem_cons, List.mem_singleton, List.not_mem_nil, or_false] at he
    rcases he with he | he
    · exact ⟨hs, Or.inl ⟨true, he⟩⟩
    · exact ⟨hs, Or.inr ⟨d, true, hr, he⟩⟩

theorem replaceConsole_fs (conf : Conf) (fs : FS) :
    (replaceConsole conf fs).fs =
      if IsExist fs consoleDist then (Walk conf fs consoleDist).fs else fs := by
  unfold replaceConsole
  split
  · simp only []
    split <;> rfl
  · rfl

theorem replaceConsole_log (conf : Conf) (fs : FS) :
    (replaceConsole conf fs).log =
      if IsExist fs consoleDist then (Walk conf fs consoleDist).log else [] := by
  unfold replaceConsole
  split
  · simp only []
    split <;> rfl
  · rfl

theorem replaceServerConf_fs (conf : Conf) (fs : FS) :
    (replaceServerConf conf fs).fs = (replaceSw conf fs).fs ∨
    (replaceServerConf conf fs).fs = (replaceConsole conf (replaceSw conf fs).fs).fs := by
  unfold replaceServerConf
  simp only []
  split
  · left; rfl
  · right; rfl

theorem replaceServerConf_log (conf : Conf) (fs : FS) :
    (replaceServerConf conf fs).log = (replaceSw conf fs).log ∨
    (replaceServerConf conf fs).log =
      (replaceSw conf fs).log ++ (replaceConsole conf (replaceSw conf fs).fs).log := by
  unfold replaceServerConf
  simp only []
  split
  · left; rfl
  · right; rfl

theorem HasSuffix_consoleDist : HasSuffix consoleDist tplSuffix = false := by decide

/-- The paths visited by the walk over `console/dist/` are the root and the
paths of the file system below it. -/
theorem walk_log (conf : Conf) (fs : FS) :
    ∀ e ∈ (Walk conf fs consoleDist).log,
      (∃ p err, e = Event.walkFn p err ∧ HasPrefix p consoleDist = true) ∨
      ∃ p, p ∈ fs.entries.map Prod.fst ∧ HasPrefix p consoleDist = true ∧
        HasSuffix p tplSuffix = true ∧
        ((∃ ok, e = Event.readFile p ok) ∨
         ∃ d ok, e = Event.writeFile (TrimSuffix p tplSuffix) (resolveConsole conf d) 0o644 ok) := by
  intro e he
  obtain ⟨p, hp, h⟩ := walkLoop_log conf _ fs e he
  rcases mem_walkPaths.mp hp with hroot | ⟨hk, hpre⟩
  · subst hroot
    rcases h with ⟨err, h⟩ | ⟨hs, _⟩
    · left; exact ⟨_, err, h, HasPrefix_iff.mpr List.prefix_rfl⟩
    · rw [HasSuffix_consoleDist] at hs; exact absurd hs (by simp)
  · rcases h with ⟨err, h⟩ | ⟨hs, h⟩
    · left; exact ⟨p, err, h, hpre⟩
    · right; exact ⟨p, hk, hpre, hs, h⟩

theorem walk_log_path (conf : Conf) (fs : FS) :
    ∀ e ∈ (Walk conf fs consoleDist).log, HasPrefix e.path consoleDist = true := by
  intro e he
  rcases walk_log conf fs e he with ⟨p, err, h, hp⟩ | ⟨p, _, hp, hs, ⟨ok, h⟩ | ⟨d, ok, h⟩⟩
  · rw [h]; exact hp
  · rw [h]; exact hp
  · rw [h]; exact consoleDist_prefix_TrimSuffix hp hs

/-! ## Claims on the content of resolved artifacts -/

theorem serverTpl_ne_nil : serverTpl ≠ [] := by decide

theorem staticServerTpl_ne_nil : staticServerTpl ≠ [] := by decide

theorem versionTpl_ne_nil : versionTpl ≠ [] := by decide

/-- With values independent of the placeholders, the two-placeholder
resolution is free of both URL placeholders. -/
theorem resolveConsole_clean {conf : Conf}
    (h11 : independent serverTpl conf.Server = true)
    (h12 : independent serverTpl conf.StaticServer = true)
    (h22 : independent staticServerTpl conf.StaticServer = true) (d : GoString) :
    ¬ serverTpl <:+: resolveConsole conf d ∧ ¬ staticServerTpl <:+: resolveConsole conf d := by
  unfold resolveConsole
  exact ⟨not_infix_Replace_other staticServerTpl_ne_nil h12
      (not_infix_Replace_self serverTpl_ne_nil h11 d),
    not_infix_Replace_self staticServerTpl_ne_nil h22 _⟩

/-- With values independent of the placeholders, the three-placeholder
resolution is free of all three placeholders. -/
theorem resolveSw_clean {conf : Conf}
    (h11 : independent serverTpl conf.Server = true)
    (h12 : independent serverTpl conf.StaticServer = true)
    (h13 : independent serverTpl conf.StaticResourceVersion = true)
    (h22 : independent staticServerTpl conf.StaticServer = true)
    (h23 : independent staticServerTpl conf.StaticResourceVersion = true)
    (h33 : independent versionTpl conf.StaticResourceVersion = true) (d : GoString) :
    ¬ serverTpl <:+: resolveSw conf d ∧ ¬ staticServerTpl <:+: resolveSw conf d ∧
      ¬ versionTpl <:+: resolveSw conf d := by
  unfold resolveSw
  refine ⟨?_, ?_, ?_⟩
  · exact not_infix_Replace_other versionTpl_ne_nil h13
      (not_infix_Replace_other staticServerTpl_ne_nil h12
        (not_infix_Replace_self serverTpl_ne_nil h11 d))
  · exact not_infix_Replace_other versionTpl_ne_nil h23
      (not_infix_Replace_self staticServerTpl_ne_nil h22 _)
  · exact not_infix_Replace_self versionTpl_ne_nil h33 _

theorem swPath_not_below_consoleDist :
    HasPrefix (TrimSuffix swTplPath tplSuffix) consoleDist = false := by decide

/-- Every call of `replaceServerConf` belongs to the block of the fixed file or
to the walk. -/
theorem replaceServerConf_log_mem (conf : Conf) (fs : FS) :
    ∀ e ∈ (replaceServerConf conf fs).log,
      e ∈ (replaceSw conf fs).log ∨
      (IsExist (replaceSw conf fs).fs consoleDist = true ∧
        e ∈ (Walk conf (replaceSw conf fs).fs consoleDist).log) := by
  intro e he
  rcases replaceServerConf_log conf fs with h | h
  · rw [h] at he; left; exact he
  · rw [h, List.mem_append, replaceConsole_log] at he
    rcases he with he | he
    · left; exact he
    · right
      split at he
      · rename_i hex; exact ⟨hex, he⟩
      · simp at he

/-- Claim C1, as amended. Every content `replaceServerConf` passes to
`WriteFile` is a text with the placeholders replaced in source order: all three
for `theme/sw.min.js`, the two URL placeholders for a file of the walk. It is
free of the two URL placeholders, and for `theme/sw.min.js` free of the
resource-version placeholder as well, provided each configuration value is
independent of its own placeholder and of the placeholders replaced before it:
neither occurs in the other and no
non-empty end of one is a beginning of the other. -/
theorem resolved_artifacts_free_of_placeholders (conf : Conf) (fs : FS)
    (h11 : independent serverTpl conf.Server = true)
    (h12 : independent serverTpl conf.StaticServer = true)
    (h13 : independent serverTpl conf.StaticResourceVersion = true)
    (h22 : independent staticServerTpl conf.StaticServer = true)
    (h23 : independent staticServerTpl conf.StaticResourceVersion = true)
    (h33 : independent versionTpl conf.StaticResourceVersion = true) :
    ∀ path data perm ok,
      Event.writeFile path data perm ok ∈ (replaceServerConf conf fs).log →
        ((path = bytes "theme/sw.min.js" ∧ ∃ d, data =
            Replace (Replace (Replace d serverTpl conf.Server)
              staticServerTpl conf.StaticServer) versionTpl conf.StaticResourceVersion) ∨
          (path ≠ bytes "theme/sw.min.js" ∧ ∃ d, data =
            Replace (Replace d serverTpl conf.Server) staticServerTpl conf.StaticServer)) ∧
        ¬ serverTpl <:+: data ∧ ¬ staticServerTpl <:+: data ∧
        (path = bytes "theme/sw.min.js" → ¬ versionTpl <:+: data) := by
  intro path data perm ok he
  rcases replaceServerConf_log_mem conf fs _ he with h | ⟨_, h⟩
  · obtain ⟨_, ⟨ok2, h2⟩ | ⟨d, ok2, _, h2⟩⟩ := replaceSw_log conf fs _ h
    · exact absurd h2 (by simp)
    · simp only [Event.writeFile.injEq] at h2
      obtain ⟨hpath, hd, _, _⟩ := h2
      rw [hd]
      obtain ⟨c1, c2, c3⟩ := resolveSw_clean h11 h12 h13 h22 h23 h33 d
      refine ⟨Or.inl ⟨?_, d, rfl⟩, c1, c2, fun _ => c3⟩
      rw [hpath, TrimSuffix_swTplPath]
  · rcases walk_log conf _ _ h with ⟨p, err, h2, _⟩ | ⟨p, _, hp, hs, ⟨ok2, h2⟩ | ⟨d, ok2, h2⟩⟩
    · exact absurd h2 (by simp)
    · exact absurd h2 (by simp)
    · simp only [Event.writeFile.injEq] at h2
      obtain ⟨hpath, hd, _, _⟩ := h2
      rw [hd]
      obtain ⟨c1, c2⟩ := resolveConsole_clean h11 h12 h22 d
      have hne : path ≠ bytes "theme/sw.min.js" := by
        intro hsw
        have h3 := consoleDist_prefix_TrimSuffix hp hs
        rw [← hpath, hsw] at h3
        revert h3
        decide
      exact ⟨Or.inr ⟨hne, d, rfl⟩, c1, c2, fun hsw => absurd hsw hne⟩

/-- Witness of `resolved_artifacts_free_of_placeholders`: the configuration of
the specification's scenario on the sample deployment. -/
theorem resolved_artifacts_free_of_placeholders_witness :
    independent serverTpl exConf.Server = true ∧
    independent serverTpl exConf.StaticServer = true ∧
    independent serverTpl exConf.StaticResourceVersion = true ∧
    independent staticServerTpl exConf.StaticServer = true ∧
    independent staticServerTpl exConf.StaticResourceVersion = true ∧
    independent versionTpl exConf.StaticResourceVersion = true ∧
    ¬ serverTpl <:+: bytes "fetch('http://example.com')" ∧
    ¬ staticServerTpl <:+: bytes "fetch('http://example.com')" ∧
    ¬ versionTpl <:+: bytes "fetch('http://example.com')" :=
  ⟨by decide, by decide, by decide, by decide, by decide, by decide,
    ((resolved_artifacts_free_of_placeholders exConf exFS (by decide) (by decide) (by decide)
      (by decide) (by decide) (by decide) (bytes "theme/sw.min.js")
      (bytes "fetch('http://example.com')") 0o644 true (by decide)).2.1),
    ((resolved_artifacts_free_of_placeholders exConf exFS (by decide) (by decide) (by decide)
      (by decide) (by decide) (by decide) (bytes "theme/sw.min.js")
      (bytes "fetch('http://example.com')") 0o644 true (by decide)).2.2.1),
    ((resolved_artifacts_free_of_placeholders exConf exFS (by decide) (by decide) (by decide)
      (by decide) (by decide) (by decide) (bytes "theme/sw.min.js")
      (bytes "fetch('http://example.com')") 0o644 true (by decide)).2.2.2 rfl)⟩

/-- Claim C1 fails as stated. The artifact written for the walked template
`console/dist/app.js.tpl` still contains the resource-version placeholder; and
with a server address that contains the server placeholder, the artifact
written for `theme/sw.min.js` contains that placeholder. -/
theorem walked_artifact_keeps_version_placeholder :
    (Event.writeFile (bytes "console/dist/app.js")
        (bytes "api=http://example.com;v=$\x7bStaticResourceVersion\x7d") 0o644 true
      ∈ (replaceServerConf exConf exFS).log ∧
    versionTpl <:+: bytes "api=http://example.com;v=$\x7bStaticResourceVersion\x7d") ∧
    (Event.writeFile (bytes "theme/sw.min.js")
        (bytes "fetch('http://server.tpl.json.example.com')") 0o644 true
      ∈ (replaceServerConf echoConf exFS).log ∧
    serverTpl <:+: bytes "fetch('http://server.tpl.json.example.com')") := by
  refine ⟨⟨by decide, ?_⟩, ⟨by decide, ?_⟩⟩
  · rw [← occurs_iff]
    decide
  · rw [← occurs_iff]
    decide

/-! ## Frame of `replaceServerConf` -/

theorem ReadFile_IsExist {fs : FS} {p d : GoString} (h : ReadFile fs p = some d) :
    IsExist fs p = true := by
  unfold ReadFile at h
  split at h
  · simp at h
  · split at h
    · rename_i heq
      unfold IsExist
      rw [heq]
      rfl
    · simp at h

theorem IsExist_consoleDist (fs : FS) :
    IsExist fs consoleDist = true ↔ fs.lookup (bytes "console/dist") = some Node.dir := by
  have h1 : consoleDist.getLast? = some 47 := by decide
  have h2 : consoleDist.dropLast = bytes "console/dist" := by decide
  unfold IsExist Stat
  rw [if_pos h1, h2]
  cases h : fs.lookup (bytes "console/dist") with
  | none => simp
  | some n => cases n <;> simp

theorem IsExist_consoleDist_replaceSw (conf : Conf) (fs : FS) :
    IsExist (replaceSw conf fs).fs consoleDist = IsExist fs consoleDist := by
  have h := replaceSw_lookup conf fs
    (show bytes "console/dist" ≠ TrimSuffix swTplPath tplSuffix by decide)
  have h1 := IsExist_consoleDist (replaceSw conf fs).fs
  have h2 := IsExist_consoleDist fs
  rw [h] at h1
  cases h3 : IsExist fs consoleDist with
  | true => exact h1.mpr (h2.mp h3)
  | false =>
    cases h4 : IsExist (replaceSw conf fs).fs consoleDist with
    | false => rfl
    | true => rw [h2.mpr (h1.mp h4)] at h3; exact absurd h3 (by simp)

/-- Frame of the walk over `console/dist/`. -/
theorem replaceConsole_lookup (conf : Conf) (fs : FS) {q : GoString}
    (hq : ∀ p ∈ fs.entries.map Prod.fst, HasPrefix p consoleDist = true →
      HasSuffix p tplSuffix = true → TrimSuffix p tplSuffix ≠ q) :
    (replaceConsole conf fs).fs.lookup q = fs.lookup q := by
  rw [replaceConsole_fs]
  split
  · apply walkLoop_lookup
    intro p hp hs
    rcases mem_walkPaths.mp hp with hroot | ⟨hk, hpre⟩
    · rw [hroot, HasSuffix_consoleDist] at hs
      exact absurd hs (by simp)
    · exact hq p hk hpre hs
  · rfl

/-- Frame of `replaceServerConf`: a path other than `theme/sw.min.js` that is
not the resolved path of a template below `console/dist/` keeps its node. -/
theorem replaceServerConf_lookup (conf : Conf) (fs : FS) {q : GoString}
    (hsw : q ≠ TrimSuffix swTplPath tplSuffix)
    (hq : ∀ p ∈ fs.entries.map Prod.fst, HasPrefix p consoleDist = true →
      HasSuffix p tplSuffix = true → TrimSuffix p tplSuffix ≠ q) :
    (replaceServerConf conf fs).fs.lookup q = fs.lookup q := by
  rcases replaceServerConf_fs conf fs with h | h
  · rw [h]; exact replaceSw_lookup conf fs hsw
  · rw [h, replaceConsole_lookup, replaceSw_lookup conf fs hsw]
    intro p hp hpre hs
    rcases replaceSw_keys conf fs p hp with h1 | h1
    · rw [h1, swPath_not_below_consoleDist] at hpre
      exact absurd hpre (by simp)
    · exact hq p h1 hpre hs

/-- The walk never touches a path outside `console/dist/`. -/
theorem replaceConsole_lookup_outside (conf : Conf) (fs : FS) {q : GoString}
    (hq : HasPrefix q consoleDist = false) :
    (replaceConsole conf fs).fs.lookup q = fs.lookup q := by
  apply replaceConsole_lookup
  intro p _ hpre hs heq
  have := consoleDist_prefix_TrimSuffix hpre hs
  rw [heq, hq] at this
  exact absurd this (by simp)

/-- Claim C10, as amended. The only paths whose node can differ after a run of
`replaceServerConf` are `theme/sw.min.js` and the paths obtained by stripping
`.tpl` from a `.tpl` path below `console/dist/`; every other path, a template
included when it is not itself such a stripped path, keeps its node. -/
theorem replaceServerConf_frame (conf : Conf) (fs : FS) (q : GoString)
    (hsw : q ≠ bytes "theme/sw.min.js")
    (hq : ∀ p ∈ fs.entries.map Prod.fst, HasPrefix p consoleDist = true →
      HasSuffix p tplSuffix = true → TrimSuffix p tplSuffix ≠ q) :
    (replaceServerConf conf fs).fs.lookup q = fs.lookup q := by
  apply replaceServerConf_lookup conf fs _ hq
  rw [TrimSuffix_swTplPath]
  exact hsw

/-- Witness of `replaceServerConf_frame`: the template `console/dist/a.tpl.tpl`
of the nested deployment keeps its content. -/
theorem replaceServerConf_frame_witness :
    bytes "console/dist/a.tpl.tpl" ≠ bytes "theme/sw.min.js" ∧
    (∀ p ∈ nestedFS.entries.map Prod.fst, HasPrefix p consoleDist = true →
      HasSuffix p tplSuffix = true → TrimSuffix p tplSuffix ≠ bytes "console/dist/a.tpl.tpl") ∧
    (replaceServerConf exConf nestedFS).fs.lookup (bytes "console/dist/a.tpl.tpl")
      = nestedFS.lookup (bytes "console/dist/a.tpl.tpl") :=
  ⟨by decide, by decide,
    replaceServerConf_frame exConf nestedFS (bytes "console/dist/a.tpl.tpl")
      (by decide) (by decide)⟩

/-- Claim C10 fails as stated: the template `console/dist/a.tpl` is the
resolved path of `console/dist/a.tpl.tpl` and is overwritten by the run. -/
theorem template_overwritten_by_nested_template :
    HasSuffix (bytes "console/dist/a.tpl") tplSuffix = true ∧
    nestedFS.lookup (bytes "console/dist/a.tpl") = some (Node.file (bytes "x")) ∧
    (replaceServerConf exConf nestedFS).fs.lookup (bytes "console/dist/a.tpl")
      = some (Node.file (bytes "y")) ∧
    (replaceServerConf exConf nestedFS).ctl = Ctl.ret () := by
  decide

/-! ## Absent targets -/

/-- Claim C5. When `theme/sw.min.js.tpl` does not exist, the block of the fixed
file makes no call, changes nothing and completes, and no call of the run is
about `theme/sw.min.js.tpl` or `theme/sw.min.js`. When `console/dist/` does not
exist, the callback of the walk is never entered and the run makes exactly the
calls and leaves exactly the file system of the block of the fixed file. When
both are absent the run returns normally, having made no call, with the file
system unchanged. -/
theorem absent_targets_are_skipped (conf : Conf) (fs : FS) :
    (IsExist fs swTplPath = false →
      replaceSw conf fs = ⟨fs, [], Ctl.ret ()⟩ ∧
      ∀ e ∈ (replaceServerConf conf fs).log,
        e.path ≠ bytes "theme/sw.min.js.tpl" ∧ e.path ≠ bytes "theme/sw.min.js") ∧
    (IsExist fs consoleDist = false →
      (∀ e ∈ (replaceServerConf conf fs).log, e.isWalkFn = false) ∧
      (replaceServerConf conf fs).log = (replaceSw conf fs).log ∧
      (replaceServerConf conf fs).fs = (replaceSw conf fs).fs) ∧
    (IsExist fs swTplPath = false → IsExist fs consoleDist = false →
      (replaceServerConf conf fs).ctl = Ctl.ret () ∧
      (replaceServerConf conf fs).log = [] ∧
      (replaceServerConf conf fs).fs = fs) := by
  have hcase : ∀ fs1 : FS, IsExist fs1 consoleDist = false →
      replaceConsole conf fs1 = ⟨fs1, [], Ctl.ret ()⟩ := by
    intro fs1 h
    unfold replaceConsole
    rw [h]
    rfl
  have hsw : IsExist fs swTplPath = false → replaceSw conf fs = ⟨fs, [], Ctl.ret ()⟩ := by
    intro h
    rcases replaceSw_cases conf fs with ⟨_, h1⟩ | ⟨h0, _⟩ | ⟨_, h0, _⟩ | ⟨_, _, h0, _⟩
    · exact h1
    · rw [h] at h0; exact absurd h0 (by simp)
    · rw [h] at h0; exact absurd h0 (by simp)
    · rw [h] at h0; exact absurd h0 (by simp)
  refine ⟨fun h => ⟨hsw h, ?_⟩, fun h => ?_, fun h1 h2 => ?_⟩
  · intro e he
    rcases replaceServerConf_log_mem conf fs e he with h2 | ⟨_, h2⟩
    · rw [hsw h] at h2
      simp at h2
    · have hp := walk_log_path conf _ e h2
      constructor
      · intro heq
        rw [heq] at hp
        revert hp
        decide
      · intro heq
        rw [heq] at hp
        revert hp
        decide
  · have hc := hcase (replaceSw conf fs).fs (by rw [IsExist_consoleDist_replaceSw]; exact h)
    have hlog : (replaceServerConf conf fs).log = (replaceSw conf fs).log := by
      rcases replaceServerConf_log conf fs with h1 | h1
      · exact h1
      · rw [h1, hc]; simp
    have hfs : (replaceServerConf conf fs).fs = (replaceSw conf fs).fs := by
      rcases replaceServerConf_fs conf fs with h1 | h1
      · exact h1
      · rw [h1, hc]
    refine ⟨?_, hlog, hfs⟩
    intro e he
    rw [hlog] at he
    obtain ⟨_, ⟨ok, h2⟩ | ⟨d, ok, _, h2⟩⟩ := replaceSw_log conf fs e he
    · rw [h2]; rfl
    · rw [h2]; rfl
  · have hs := hsw h1
    unfold replaceServerConf
    simp only [hs, hcase fs h2, List.append_nil, and_self]


/-! ## Successive and simultaneous replacement -/

theorem substituteScan_drop (rules : List (GoString × GoString)) (k : Nat) (s : GoString) :
    substituteScan rules k s = substituteScan rules 0 (s.drop k) := by
  induction s generalizing k with
  | nil => cases k <;> simp [substituteScan]
  | cons c s ih =>
    cases k with
    | zero => simp
    | succ k => simp only [substituteScan, List.drop_succ_cons]; exact ih k

theorem substitute_nil (rules : List (GoString × GoString)) : substitute rules [] = [] := by
  simp [substitute, substituteScan]

theorem substitute_cons_hit {rules : List (GoString × GoString)} {c : UInt8} {s : GoString}
    {r : GoString × GoString}
    (h : rules.find? (fun r => r.1.isPrefixOf (c :: s)) = some r) (hne : r.1 ≠ []) :
    substitute rules (c :: s) = r.2 ++ substitute rules ((c :: s).drop r.1.length) := by
  unfold substitute
  rw [substituteScan]
  simp only [h]
  rw [substituteScan_drop]
  cases hr : r.1 with
  | nil => exact absurd hr hne
  | cons o os => simp

theorem substitute_cons_miss {rules : List (GoString × GoString)} {c : UInt8} {s : GoString}
    (h : rules.find? (fun r => r.1.isPrefixOf (c :: s)) = none) :
    substitute rules (c :: s) = c :: substitute rules s := by
  unfold substitute
  rw [substituteScan]
  simp only [h]

theorem substitute_no_rules (s : GoString) : substitute [] s = s := by
  induction s with
  | nil => exact substitute_nil _
  | cons c s ih => rw [substitute_cons_miss (by simp), ih]

/-- A value independent of `t` is copied by the replacement of `t`. -/
theorem Replace_append_value {t v w : GoString} (hi : independent t w = true) (y : GoString) :
    Replace (w ++ y) t v = w ++ Replace y t v := by
  obtain ⟨h1, _, _, h4⟩ := independent_iff.mp hi
  have key : ∀ (b a : GoString), w = a ++ b → Replace (b ++ y) t v = b ++ Replace y t v := by
    intro b
    induction b with
    | nil => intro a _; rfl
    | cons x b ih =>
      intro a ha
      have hmiss : ¬ t <+: x :: (b ++ y) := by
        intro hp
        rcases List.prefix_or_prefix_of_prefix hp (List.prefix_append (x :: b) y) with h | h
        · apply h1
          rw [ha]
          exact (List.IsPrefix.isInfix h).trans ⟨a, [], by simp⟩
        · have : overlaps w t = true :=
            overlaps_intro ⟨a, ha.symm⟩ (by simp) h
          rw [h4] at this
          exact Bool.false_ne_true this
      rw [List.cons_append, Replace_cons_miss hmiss, ih (a ++ [x]) (by rw [ha]; simp)]
      rfl
  exact key w [] rfl

theorem Replace_append_hit {t : GoString} (v : GoString) (hne : t ≠ []) (y : GoString) :
    Replace (t ++ y) t v = v ++ Replace y t v := by
  cases ht : t with
  | nil => exact absurd ht hne
  | cons c s =>
    have hp : (c :: s) <+: c :: (s ++ y) := ⟨y, by simp⟩
    rw [List.cons_append, Replace_cons_hit (by simp) hp]
    simp

/-- A placeholder that no rule can match inside is copied by the pass. -/
theorem substitute_append_token {rules : List (GoString × GoString)} {t : GoString}
    (hb : ∀ r ∈ rules, occurs r.1 t = false ∧ overlaps t r.1 = false) (rest : GoString) :
    substitute rules (t ++ rest) = t ++ substitute rules rest := by
  have key : ∀ (b a : GoString), t = a ++ b →
      substitute rules (b ++ rest) = b ++ substitute rules rest := by
    intro b
    induction b with
    | nil => intro a _; rfl
    | cons x b ih =>
      intro a ha
      have hnone : rules.find? (fun r => r.1.isPrefixOf (x :: (b ++ rest))) = none := by
        rw [List.find?_eq_none]
        intro r hr hp
        obtain ⟨ho, hv⟩ := hb r hr
        have hp2 : r.1 <+: x :: (b ++ rest) := List.isPrefixOf_iff_prefix.mp hp
        rcases List.prefix_or_prefix_of_prefix hp2 (List.prefix_append (x :: b) rest) with h | h
        · have : occurs r.1 t = true := by
            rw [occurs_iff, ha]
            exact (List.IsPrefix.isInfix h).trans ⟨a, [], by simp⟩
          rw [ho] at this
          exact Bool.false_ne_true this
        · have : overlaps t r.1 = true := overlaps_intro ⟨a, ha.symm⟩ (by simp) h
          rw [hv] at this
          exact Bool.false_ne_true this
      rw [List.cons_append, substitute_cons_miss hnone, ih (a ++ [x]) (by rw [ha]; simp)]
      rfl
  exact key t [] rfl

/-- What follows the first bytes of `t` in the result of the pass stood in the
text already, when `t` is independent of every value. -/
theorem prefix_of_prefix_substitute {rules : List (GoString × GoString)} {t : GoString}
    (ha : ∀ r ∈ rules, independent t r.2 = true) :
    ∀ (s b a : GoString), t = a ++ b → a ≠ [] → b <+: substitute rules s → b <+: s := by
  intro s
  induction s with
  | nil =>
    intro b a _ _ hb
    rw [substitute_nil] at hb
    exact hb
  | cons c s ih =>
    intro b a hab hane hb
    cases b with
    | nil => exact List.nil_prefix
    | cons x b =>
      cases hf : rules.find? (fun r => r.1.isPrefixOf (c :: s)) with
      | some r =>
        exfalso
        obtain ⟨_, h2, h3, _⟩ := independent_iff.mp (ha r (List.mem_of_find?_eq_some hf))
        have hs : substitute rules (c :: s) =
            r.2 ++ substituteScan rules (r.1.length - 1) s := by
          unfold substitute
          rw [substituteScan]
          simp only [hf]
        rw [hs] at hb
        rcases List.prefix_or_prefix_of_prefix hb (List.prefix_append r.2 _) with h | h
        · have : overlaps t r.2 = true := overlaps_intro ⟨a, hab.symm⟩ (by simp) h
          rw [h3] at this
          exact Bool.false_ne_true this
        · apply h2
          rw [hab]
          exact (List.IsPrefix.isInfix h).trans ⟨a, [], by simp⟩
      | none =>
        rw [substitute_cons_miss hf, List.cons_prefix_cons] at hb
        rw [List.cons_prefix_cons]
        exact ⟨hb.1, ih b (a ++ [x]) (by rw [hab]; simp) (by simp) hb.2⟩

/-- Replacing `t` after the pass for `rules` is the pass for `rules` with the
rule for `t` added, when `t` is independent of the values of `rules` and no
placeholder of `rules` can match inside `t`. -/
theorem Replace_substitute {rules : List (GoString × GoString)} {t : GoString} (v : GoString)
    (hne : t ≠ []) (hrules : ∀ r ∈ rules, r.1 ≠ [])
    (ha : ∀ r ∈ rules, independent t r.2 = true)
    (hb : ∀ r ∈ rules, occurs r.1 t = false ∧ overlaps t r.1 = false) :
    ∀ (n : Nat) (s : GoString), s.length ≤ n →
      Replace (substitute rules s) t v = substitute (rules ++ [(t, v)]) s := by
  intro n
  induction n with
  | zero =>
    intro s hs
    have : s = [] := List.length_eq_zero.mp (Nat.le_zero.mp hs)
    subst this
    rw [substitute_nil, substitute_nil, Replace_nil]
  | succ n ih =>
    intro s hs
    cases s with
    | nil => rw [substitute_nil, substitute_nil, Replace_nil]
    | cons c s =>
      cases hf : rules.find? (fun r => r.1.isPrefixOf (c :: s)) with
      | some r =>
        have hr := List.mem_of_find?_eq_some hf
        have hf2 : (rules ++ [(t, v)]).find? (fun r => r.1.isPrefixOf (c :: s)) = some r := by
          rw [List.find?_append, hf]
          rfl
        have hlen : ((c :: s).drop r.1.length).length ≤ n := by
          have : 0 < r.1.length := List.length_pos.mpr (hrules r hr)
          simp only [List.length_drop, List.length_cons] at hs ⊢
          omega
        rw [substitute_cons_hit hf (hrules r hr), substitute_cons_hit hf2 (hrules r hr),
          Replace_append_value (ha r hr), ih _ hlen]
      | none =>
        by_cases ht : t <+: c :: s
        · obtain ⟨rest, hrest⟩ := ht
          have hf2 : (rules ++ [(t, v)]).find? (fun r => r.1.isPrefixOf (c :: s)) = some (t, v) := by
            rw [List.find?_append, hf]
            have : t.isPrefixOf (c :: s) = true := List.isPrefixOf_iff_prefix.mpr ⟨rest, hrest⟩
            simp [this]
          have hlen : rest.length ≤ n := by
            have h1 : (c :: s).length = t.length + rest.length := by rw [← hrest]; simp
            have : 0 < t.length := List.length_pos.mpr hne
            simp only [List.length_cons] at hs h1
            omega
          rw [substitute_cons_hit hf2 hne]
          simp only []
          rw [← hrest, substitute_append_token hb, Replace_append_hit v hne, ih _ hlen]
          simp
        · have hf2 : (rules ++ [(t, v)]).find? (fun r => r.1.isPrefixOf (c :: s)) = none := by
            rw [List.find?_append, hf]
            have : t.isPrefixOf (c :: s) = false := by
              cases h : t.isPrefixOf (c :: s) with
              | false => rfl
              | true => exact absurd (List.isPrefixOf_iff_prefix.mp h) ht
            simp [this]
          have hmiss : ¬ t <+: c :: substitute rules s := by
            intro hp
            apply ht
            cases htc : t with
            | nil => exact List.nil_prefix
            | cons x b =>
              rw [htc, List.cons_prefix_cons] at hp
              rw [List.cons_prefix_cons]
              exact ⟨hp.1, prefix_of_prefix_substitute ha s b [x] (by rw [htc]; rfl) (by simp) hp.2⟩
          have hlen : s.length ≤ n := by
            simp only [List.length_cons] at hs
            omega
          rw [substitute_cons_miss hf, substitute_cons_miss hf2, Replace_cons_miss hmiss, ih _ hlen]

theorem serverTpl_apart_staticServerTpl :
    occurs serverTpl staticServerTpl = false ∧ overlaps staticServerTpl serverTpl = false := by
  decide

theorem serverTpl_apart_versionTpl :
    occurs serverTpl versionTpl = false ∧ overlaps versionTpl serverTpl = false := by
  decide

theorem staticServerTpl_apart_versionTpl :
    occurs staticServerTpl versionTpl = false ∧ overlaps versionTpl staticServerTpl = false := by
  decide

/-- The three successive replacements of `replaceServerConf` agree with the
single pass of the specification's wording when each configuration value is
independent of the placeholders replaced after it. -/
theorem resolveSw_eq_substitutePlaceholders {conf : Conf}
    (h21 : independent staticServerTpl conf.Server = true)
    (h31 : independent versionTpl conf.Server = true)
    (h32 : independent versionTpl conf.StaticServer = true) (t : GoString) :
    resolveSw conf t = substitutePlaceholders conf t := by
  unfold resolveSw substitutePlaceholders
  simp only []
  have e1 : Replace t serverTpl conf.Server = substitute [(serverTpl, conf.Server)] t := by
    have := @Replace_substitute [] serverTpl conf.Server serverTpl_ne_nil
      (by simp) (by simp) (by simp) t.length t le_rfl
    rw [substitute_no_rules] at this
    exact this
  have e2 : Replace (substitute [(serverTpl, conf.Server)] t) staticServerTpl conf.StaticServer
      = substitute [(serverTpl, conf.Server), (staticServerTpl, conf.StaticServer)] t := by
    refine Replace_substitute conf.StaticServer staticServerTpl_ne_nil ?_ ?_ ?_ t.length t le_rfl
    · intro r hr
      simp only [List.mem_singleton] at hr
      rw [hr]
      exact serverTpl_ne_nil
    · intro r hr
      simp only [List.mem_singleton] at hr
      rw [hr]
      exact h21
    · intro r hr
      simp only [List.mem_singleton] at hr
      rw [hr]
      exact serverTpl_apart_staticServerTpl
  have e3 : Replace (substitute [(serverTpl, conf.Server), (staticServerTpl, conf.StaticServer)] t)
      versionTpl conf.StaticResourceVersion
      = substitute [(serverTpl, conf.Server), (staticServerTpl, conf.StaticServer),
          (versionTpl, conf.StaticResourceVersion)] t := by
    refine Replace_substitute conf.StaticResourceVersion versionTpl_ne_nil ?_ ?_ ?_
      t.length t le_rfl
    · intro r hr
      simp only [List.mem_cons, List.mem_singleton, List.not_mem_nil, or_false] at hr
      rcases hr with hr | hr
      · rw [hr]; exact serverTpl_ne_nil
      · rw [hr]; exact staticServerTpl_ne_nil
    · intro r hr
      simp only [List.mem_cons, List.mem_singleton, List.not_mem_nil, or_false] at hr
      rcases hr with hr | hr
      · rw [hr]; exact h31
      · rw [hr]; exact h32
    · intro r hr
      simp only [List.mem_cons, List.mem_singleton, List.not_mem_nil, or_false] at hr
      rcases hr with hr | hr
      · rw [hr]; exact serverTpl_apart_versionTpl
      · rw [hr]; exact staticServerTpl_apart_versionTpl
  rw [e1, e2, e3]

/-! ## The fixed file -/

/-- When `theme/sw.min.js.tpl` is read with content `t`, the run calls
`WriteFile` for the stripped path with the three-placeholder resolution of `t`
and with no other content; when the write succeeds the file holds it when the
run ends. -/
theorem replaceServerConf_sw_written (conf : Conf) (fs : FS) (t : GoString)
    (hread : ReadFile fs swTplPath = some t) :
    (∃ ok, Event.writeFile (TrimSuffix swTplPath tplSuffix) (resolveSw conf t) 0o644 ok
        ∈ (replaceServerConf conf fs).log ∧
      (ok = true → (replaceServerConf conf fs).fs.lookup (TrimSuffix swTplPath tplSuffix) =
        some (Node.file (resolveSw conf t)))) ∧
    ∀ data perm ok, Event.writeFile (TrimSuffix swTplPath tplSuffix) data perm ok
        ∈ (replaceServerConf conf fs).log → data = resolveSw conf t := by
  show (∃ ok, Event.writeFile (TrimSuffix swTplPath tplSuffix) (resolveSw conf t) 0o644 ok
        ∈ (replaceServerConf conf fs).log ∧
      (ok = true → (replaceServerConf conf fs).fs.lookup (TrimSuffix swTplPath tplSuffix) =
        some (Node.file (resolveSw conf t)))) ∧
    ∀ data perm ok, Event.writeFile (TrimSuffix swTplPath tplSuffix) data perm ok
        ∈ (replaceServerConf conf fs).log → data = resolveSw conf t
  have hsub : ∀ e ∈ (replaceSw conf fs).log, e ∈ (replaceServerConf conf fs).log := by
    intro e he
    rcases replaceServerConf_log conf fs with h | h
    · rw [h]; exact he
    · rw [h]; exact List.mem_append_left _ he
  constructor
  · rcases replaceSw_cases conf fs with ⟨h0, _⟩ | ⟨_, h0, _⟩ | ⟨d, _, hr, _, h⟩ |
      ⟨d, fs1, _, hr, hw, h⟩
    · rw [ReadFile_IsExist hread] at h0; exact absurd h0 (by simp)
    · rw [hread] at h0; exact absurd h0 (by simp)
    · rw [hread] at hr
      simp only [Option.some.injEq] at hr
      subst hr
      refine ⟨false, hsub _ ?_, fun h1 => absurd h1 (by simp)⟩
      rw [h]
      simp
    · rw [hread] at hr
      simp only [Option.some.injEq] at hr
      subst hr
      refine ⟨true, hsub _ ?_, fun _ => ?_⟩
      · rw [h]
        simp
      · have hfs1 : (replaceSw conf fs).fs = fs1 := by rw [h]
        rcases replaceServerConf_fs conf fs with h1 | h1
        · rw [h1, hfs1]
          exact WriteFile_lookup_same hw
        · rw [h1, replaceConsole_lookup_outside conf _ swPath_not_below_consoleDist, hfs1]
          exact WriteFile_lookup_same hw
  · intro data perm ok he
    rcases replaceServerConf_log_mem conf fs _ he with h | ⟨_, h⟩
    · obtain ⟨_, ⟨ok2, h2⟩ | ⟨d, ok2, hr, h2⟩⟩ := replaceSw_log conf fs _ h
      · exact absurd h2 (by simp)
      · simp only [Event.writeFile.injEq] at h2
        rw [hread] at hr
        simp only [Option.some.injEq] at hr
        rw [h2.2.1, hr]
    · exfalso
      have hp := walk_log_path conf _ _ h
      simp only [Event.path] at hp
      rw [swPath_not_below_consoleDist] at hp
      exact absurd hp (by simp)

/-- Claim C7, as amended. When `theme/sw.min.js.tpl` is read with content
`t`, the run calls `WriteFile` for `theme/sw.min.js` with mode 0644 and the
content obtained from `t` by three successive replacements, each applied to
the result of the one before: every `http://server.tpl.json` by `Conf.Server`,
then every `http://staticserver.tpl.json` by `Conf.StaticServer`, then every
`${StaticResourceVersion}` by `Conf.StaticResourceVersion`. No other content
is ever passed for that path, and when the write succeeds the file holds that
content when the run ends. When each configuration value is independent of
the placeholders replaced after it, this content is the template with every
occurrence of each placeholder replaced by its own value and everything else
unchanged. -/
theorem sw_artifact_content (conf : Conf) (fs : FS) (t : GoString)
    (hread : ReadFile fs swTplPath = some t) :
    ((∃ ok, Event.writeFile (bytes "theme/sw.min.js")
        (Replace (Replace (Replace t (bytes "http://server.tpl.json") conf.Server)
          (bytes "http://staticserver.tpl.json") conf.StaticServer)
          (bytes "$\x7bStaticResourceVersion\x7d") conf.StaticResourceVersion) 0o644 ok
        ∈ (replaceServerConf conf fs).log ∧
      (ok = true → (replaceServerConf conf fs).fs.lookup (bytes "theme/sw.min.js") =
        some (Node.file
          (Replace (Replace (Replace t (bytes "http://server.tpl.json") conf.Server)
            (bytes "http://staticserver.tpl.json") conf.StaticServer)
            (bytes "$\x7bStaticResourceVersion\x7d") conf.StaticResourceVersion)))) ∧
    ∀ data perm ok, Event.writeFile (bytes "theme/sw.min.js") data perm ok
        ∈ (replaceServerConf conf fs).log →
      data = Replace (Replace (Replace t (bytes "http://server.tpl.json") conf.Server)
          (bytes "http://staticserver.tpl.json") conf.StaticServer)
          (bytes "$\x7bStaticResourceVersion\x7d") conf.StaticResourceVersion) ∧
    (independent staticServerTpl conf.Server = true →
      independent versionTpl conf.Server = true →
      independent versionTpl conf.StaticServer = true →
      Replace (Replace (Replace t (bytes "http://server.tpl.json") conf.Server)
          (bytes "http://staticserver.tpl.json") conf.StaticServer)
          (bytes "$\x7bStaticResourceVersion\x7d") conf.StaticResourceVersion
        = substitutePlaceholders conf t) := by
  constructor
  · have h := replaceServerConf_sw_written conf fs t hread
    rw [TrimSuffix_swTplPath] at h
    exact h
  · intro h21 h31 h32
    exact resolveSw_eq_substitutePlaceholders h21 h31 h32 t

/-- Witness of `sw_artifact_content`: the scenario of the specification, where
`fetch('http://server.tpl.json')` resolves to `fetch('http://example.com')`. -/
theorem sw_artifact_content_witness :
    ReadFile exFS swTplPath = some (bytes "fetch('http://server.tpl.json')") ∧
    independent staticServerTpl exConf.Server = true ∧
    independent versionTpl exConf.Server = true ∧
    independent versionTpl exConf.StaticServer = true ∧
    Event.writeFile (bytes "theme/sw.min.js") (bytes "fetch('http://example.com')") 0o644 true
      ∈ (replaceServerConf exConf exFS).log ∧
    (replaceServerConf exConf exFS).fs.lookup (bytes "theme/sw.min.js") =
      some (Node.file (bytes "fetch('http://example.com')")) ∧
    substitutePlaceholders exConf (bytes "fetch('http://server.tpl.json')") =
      bytes "fetch('http://example.com')" := by
  have h := sw_artifact_content exConf exFS (bytes "fetch('http://server.tpl.json')") (by decide)
  obtain ⟨⟨⟨ok, hmem, hfs⟩, _⟩, heq⟩ := h
  have hd : Replace (Replace (Replace (bytes "fetch('http://server.tpl.json')")
      (bytes "http://server.tpl.json") exConf.Server)
      (bytes "http://staticserver.tpl.json") exConf.StaticServer)
      (bytes "$\x7bStaticResourceVersion\x7d") exConf.StaticResourceVersion
      = bytes "fetch('http://example.com')" := by decide
  refine ⟨by decide, by decide, by decide, by decide, by decide, ?_, ?_⟩
  · have hok : ok = true := by
      cases ok with
      | true => rfl
      | false =>
        exfalso
        revert hmem
        decide
    have hfs2 := hfs hok
    rw [hd] at hfs2
    exact hfs2
  · rw [← heq (by decide) (by decide) (by decide), hd]

/-- Claim C7 fails as stated. With a server address equal to the static-server
placeholder, the occurrence of `http://server.tpl.json` in the template ends
as the value of `Conf.StaticServer`, not of `Conf.Server`; with an empty
server address, text of the template that is no placeholder is rewritten. In
both cases the content written differs from the template with each
placeholder replaced by its own value. -/
theorem sw_artifact_differs_from_wording :
    (Event.writeFile (bytes "theme/sw.min.js") (bytes "fetch('http://static.example.com')")
        0o644 true ∈ (replaceServerConf swapConf exFS).log ∧
      substitutePlaceholders swapConf (bytes "fetch('http://server.tpl.json')") =
        bytes "fetch('http://staticserver.tpl.json')") ∧
    (Event.writeFile (bytes "theme/sw.min.js") (bytes "http://static.example.com")
        0o644 true ∈ (replaceServerConf emptyServerConf gluedFS).log ∧
      gluedFS.lookup swTplPath =
        some (Node.file (bytes "http://statichttp://server.tpl.jsonserver.tpl.json")) ∧
      substitutePlaceholders emptyServerConf
          (bytes "http://statichttp://server.tpl.jsonserver.tpl.json") =
        bytes "http://staticserver.tpl.json") := by
  decide

/-! ## Completeness of the walk -/

/-- When the loop of the walk ends without error, the callback returned nil on
the first path and the loop went on with the rest. -/
theorem walkLoop_cons_ok {conf : Conf} {p : GoString} {ps : List GoString} {fs : FS}
    (h : (walkLoop conf (p :: ps) fs).ctl = Ctl.ret false) :
    (walkFn conf fs p (decide (p ∈ fs.walkErr))).ctl = Ctl.ret false ∧
    (walkLoop conf ps (walkFn conf fs p (decide (p ∈ fs.walkErr))).fs).ctl = Ctl.ret false ∧
    (walkLoop conf (p :: ps) fs).fs =
      (walkLoop conf ps (walkFn conf fs p (decide (p ∈ fs.walkErr))).fs).fs ∧
    (walkLoop conf (p :: ps) fs).log =
      (walkFn conf fs p (decide (p ∈ fs.walkErr))).log ++
      (walkLoop conf ps (walkFn conf fs p (decide (p ∈ fs.walkErr))).fs).log := by
  simp only [walkLoop] at h ⊢
  split at h
  · simp at h
  · simp at h
  · rename_i heq
    simp only [heq]
    exact ⟨trivial, h, trivial, trivial⟩

/-- The two ways in which the callback returns nil. -/
theorem walkFn_ok {conf : Conf} {fs : FS} {p : GoString} {err : Bool}
    (h : (walkFn conf fs p err).ctl = Ctl.ret false) :
    err = false ∧
    ((HasSuffix p tplSuffix = false ∧ (walkFn conf fs p err).fs = fs) ∨
     ∃ d fs1, HasSuffix p tplSuffix = true ∧ ReadFile fs p = some d ∧
      WriteFile fs (TrimSuffix p tplSuffix) (resolveConsole conf d) 0o644 = some fs1 ∧
      (walkFn conf fs p err).fs = fs1 ∧
      Event.writeFile (TrimSuffix p tplSuffix) (resolveConsole conf d) 0o644 true
        ∈ (walkFn conf fs p err).log) := by
  rcases walkFn_cases conf fs p err with ⟨hs, h1⟩ | ⟨_, _, h1⟩ | ⟨d, _, _, _, h1⟩ |
    ⟨d, fs1, hs, hr, hw, h1⟩
  · rw [h1] at h
    simp only [Ctl.ret.injEq] at h
    exact ⟨h, Or.inl ⟨hs, by rw [h1]⟩⟩
  · rw [h1] at h; simp at h
  · rw [h1] at h; simp at h
  · rw [h1] at h
    simp only [Ctl.ret.injEq] at h
    refine ⟨h, Or.inr ⟨d, fs1, hs, hr, hw, by rw [h1], ?_⟩⟩
    rw [h1]
    simp

/-- A walk that ends without error has resolved every template it visited: it
read the content the template had when the walk began, wrote the
two-placeholder resolution of it with mode 0644 to the stripped path, and that
file holds this content when the walk ends. The paths are visited in an order
in which no template is visited after its own resolved path was written. -/
theorem walkLoop_complete (conf : Conf) (l : List GoString) (fs : FS)
    (hsafe : l.Pairwise (fun a b => HasSuffix a tplSuffix = true → TrimSuffix a tplSuffix ≠ b))
    (hok : (walkLoop conf l fs).ctl = Ctl.ret false) :
    ∀ p ∈ l, HasSuffix p tplSuffix = true → ∃ d, fs.lookup p = some (Node.file d) ∧
      Event.writeFile (TrimSuffix p tplSuffix) (resolveConsole conf d) 0o644 true
        ∈ (walkLoop conf l fs).log ∧
      (walkLoop conf l fs).fs.lookup (TrimSuffix p tplSuffix)
        = some (Node.file (resolveConsole conf d)) := by
  induction l generalizing fs with
  | nil => intro p hp; simp at hp
  | cons q l ih =>
    obtain ⟨hq, hrest, hfs, hlog⟩ := walkLoop_cons_ok hok
    obtain ⟨hqsafe, hlsafe⟩ := List.pairwise_cons.mp hsafe
    have ih2 := ih _ hlsafe hrest
    have hframe : ∀ p ∈ l, (walkFn conf fs q (decide (q ∈ fs.walkErr))).fs.lookup p
        = fs.lookup p := fun p hp => walkFn_lookup conf fs q _ (hqsafe p hp)
    have htail : ∀ p ∈ l, HasSuffix p tplSuffix = true → ∃ d, fs.lookup p = some (Node.file d) ∧
        Event.writeFile (TrimSuffix p tplSuffix) (resolveConsole conf d) 0o644 true
          ∈ (walkLoop conf (q :: l) fs).log ∧
        (walkLoop conf (q :: l) fs).fs.lookup (TrimSuffix p tplSuffix)
          = some (Node.file (resolveConsole conf d)) := by
      intro p hp hs
      obtain ⟨d, hd, hev, hfin⟩ := ih2 p hp hs
      refine ⟨d, ?_, ?_, ?_⟩
      · rw [← hframe p hp]; exact hd
      · rw [hlog]; exact List.mem_append_right _ hev
      · rw [hfs]; exact hfin
    intro p hp hs
    rcases List.mem_cons.mp hp with hpq | hpl
    · subst hpq
      by_cases hmem : p ∈ l
      · exact htail p hmem hs
      · obtain ⟨_, h1 | ⟨d, fs1, _, hr, hw, hfs1, hev⟩⟩ := walkFn_ok hq
        · rw [h1.1] at hs; exact absurd hs (by simp)
        · refine ⟨d, ReadFile_some hr, ?_, ?_⟩
          · rw [hlog]; exact List.mem_append_left _ hev
          · rw [hfs, walkLoop_lookup, hfs1]
            · exact WriteFile_lookup_same hw
            · intro r hr2 hrs heq
              apply hmem
              rw [← TrimSuffix_inj hrs hs heq]
              exact hr2
    · exact htail p hpl hs

theorem walkPaths_safe (fs : FS) :
    (walkPaths fs consoleDist).Pairwise
      (fun a b => HasSuffix a tplSuffix = true → TrimSuffix a tplSuffix ≠ b) := by
  have h := walkPaths_sorted fs consoleDist
  unfold walkPaths at h ⊢
  rw [List.tail_cons] at h
  rw [List.pairwise_cons]
  constructor
  · intro b _ hs
    rw [HasSuffix_consoleDist] at hs
    exact absurd hs (by simp)
  · exact h.imp (fun hab hs => TrimSuffix_ne_of_WalkLE hs hab)

/-- How a normal return of `replaceServerConf` comes about. -/
theorem replaceServerConf_ret {conf : Conf} {fs : FS}
    (h : (replaceServerConf conf fs).ctl = Ctl.ret ()) :
    (replaceSw conf fs).ctl = Ctl.ret () ∧
    (replaceConsole conf (replaceSw conf fs).fs).ctl = Ctl.ret () ∧
    (replaceServerConf conf fs).fs = (replaceConsole conf (replaceSw conf fs).fs).fs ∧
    (replaceServerConf conf fs).log =
      (replaceSw conf fs).log ++ (replaceConsole conf (replaceSw conf fs).fs).log := by
  unfold replaceServerConf at h ⊢
  simp only [] at h ⊢
  split at h
  · simp at h
  · rename_i u heq
    simp only [heq]
    exact ⟨trivial, h, trivial, trivial⟩

theorem replaceConsole_ret {conf : Conf} {fs : FS}
    (h : (replaceConsole conf fs).ctl = Ctl.ret ()) (hex : IsExist fs consoleDist = true) :
    (Walk conf fs consoleDist).ctl = Ctl.ret false := by
  unfold replaceConsole at h
  rw [if_pos hex] at h
  simp only [] at h
  split at h
  · simp at h
  · simp [Fatal] at h
  · rename_i heq; exact heq

/-- A run that returns normally has resolved every template below
`console/dist/`. -/
theorem replaceServerConf_complete {conf : Conf} {fs : FS}
    (hex : IsExist fs consoleDist = true)
    (hret : (replaceServerConf conf fs).ctl = Ctl.ret ()) :
    ∀ p ∈ fs.entries.map Prod.fst, HasPrefix p consoleDist = true →
      HasSuffix p tplSuffix = true →
      ∃ d, fs.lookup p = some (Node.file d) ∧
        Event.writeFile (TrimSuffix p tplSuffix) (resolveConsole conf d) 0o644 true
          ∈ (replaceServerConf conf fs).log ∧
        (replaceServerConf conf fs).fs.lookup (TrimSuffix p tplSuffix) =
          some (Node.file (resolveConsole conf d)) := by
  intro p hp hpre hs
  obtain ⟨_, hc, hfs, hlog⟩ := replaceServerConf_ret hret
  have hex1 : IsExist (replaceSw conf fs).fs consoleDist = true := by
    rw [IsExist_consoleDist_replaceSw]; exact hex
  have hw := replaceConsole_ret hc hex1
  have hmem : p ∈ walkPaths (replaceSw conf fs).fs consoleDist :=
    mem_walkPaths.mpr (Or.inr ⟨replaceSw_keys_mono conf fs p hp, hpre⟩)
  obtain ⟨d, hd, hev, hfin⟩ :=
    walkLoop_complete conf _ _ (walkPaths_safe _) hw p hmem hs
  have hne : p ≠ TrimSuffix swTplPath tplSuffix := by
    intro heq
    rw [heq, swPath_not_below_consoleDist] at hpre
    exact absurd hpre (by simp)
  rw [replaceSw_lookup conf fs hne] at hd
  refine ⟨d, hd, ?_, ?_⟩
  · rw [hlog, replaceConsole_log, if_pos hex1]
    exact List.mem_append_right _ hev
  · rw [hfs, replaceConsole_fs, if_pos hex1]
    exact hfin


/-! ## The walk over `console/dist/` -/

/-- Claim C8. When `console/dist/` exists and `replaceServerConf` returns
normally, then for every path below `console/dist/` that ends in `.tpl` the
path names a regular file and the run has written, with mode 0644, the path
without its `.tpl` suffix; the content written is the content of the template
with `http://server.tpl.json` and `http://staticserver.tpl.json` replaced and
nothing else, so `${StaticResourceVersion}` is not substituted; the file holds
that content when the run ends, and no template is left out. -/
theorem walked_templates_resolved (conf : Conf) (fs : FS)
    (hex : IsExist fs consoleDist = true)
    (hret : (replaceServerConf conf fs).ctl = Ctl.ret ()) :
    ∀ p ∈ fs.entries.map Prod.fst, HasPrefix p consoleDist = true →
      HasSuffix p tplSuffix = true →
      ∃ d, fs.lookup p = some (Node.file d) ∧
        Event.writeFile (TrimSuffix p tplSuffix)
            (Replace (Replace d (bytes "http://server.tpl.json") conf.Server)
              (bytes "http://staticserver.tpl.json") conf.StaticServer) 0o644 true
          ∈ (replaceServerConf conf fs).log ∧
        (replaceServerConf conf fs).fs.lookup (TrimSuffix p tplSuffix) =
          some (Node.file (Replace (Replace d (bytes "http://server.tpl.json") conf.Server)
              (bytes "http://staticserver.tpl.json") conf.StaticServer)) := by
  exact replaceServerConf_complete hex hret

/-- Witness of `walked_templates_resolved`: the walked template of the sample
deployment keeps `${StaticResourceVersion}` in its resolved artifact. -/
theorem walked_templates_resolved_witness :
    IsExist exFS consoleDist = true ∧
    (replaceServerConf exConf exFS).ctl = Ctl.ret () ∧
    bytes "console/dist/app.js.tpl" ∈ exFS.entries.map Prod.fst ∧
    (replaceServerConf exConf exFS).fs.lookup (bytes "console/dist/app.js") =
      some (Node.file (bytes "api=http://example.com;v=$\x7bStaticResourceVersion\x7d")) := by
  refine ⟨by decide, by decide, by decide, ?_⟩
  obtain ⟨d, hd, _, hfin⟩ := walked_templates_resolved exConf exFS (by decide) (by decide)
    (bytes "console/dist/app.js.tpl") (by decide) (by decide) (by decide)
  have hd2 : d = bytes "api=http://server.tpl.json;v=$\x7bStaticResourceVersion\x7d" := by
    have h0 : exFS.lookup (bytes "console/dist/app.js.tpl") = some (Node.file
        (bytes "api=http://server.tpl.json;v=$\x7bStaticResourceVersion\x7d")) := by decide
    rw [h0] at hd
    simp only [Option.some.injEq, Node.file.injEq] at hd
    exact hd.symm
  subst hd2
  have ht : TrimSuffix (bytes "console/dist/app.js.tpl") tplSuffix = bytes "console/dist/app.js" := by
    decide
  rw [ht] at hfin
  rw [hfin]
  decide

/-! ## Failures are fatal -/

theorem settled_append_of_calm {a b : List Event} (ha : calm a = true) (hb : settled b = true) :
    settled (a ++ b) = true := by
  induction a with
  | nil => exact hb
  | cons e a ih =>
    simp only [calm, List.all_cons, Bool.and_eq_true, Bool.not_eq_true'] at ha
    have ih2 := ih (by simpa [calm] using ha.2)
    simp only [List.cons_append, settled, ha.1, Bool.not_false, Bool.true_or, Bool.true_and]
    exact ih2

theorem settled_spec {l : List Event} (h : settled l = true) {l1 l2 : List Event} {e : Event}
    (hl : l = l1 ++ e :: l2) (he : e.failed = true) :
    (∀ e2 ∈ l2, e2.isWalkFn = false) ∧ (e.isWalkFn = false → l2 = []) := by
  induction l1 generalizing l with
  | nil =>
    subst hl
    simp only [List.nil_append, settled, he, Bool.not_true, Bool.false_or, Bool.and_eq_true,
      List.all_eq_true, Bool.not_eq_true', Bool.or_eq_true, List.isEmpty_iff] at h
    refine ⟨h.1.1, fun hw => ?_⟩
    rcases h.1.2 with h2 | h2
    · rw [hw] at h2; exact absurd h2 (by simp)
    · exact h2
  | cons x l1 ih =>
    subst hl
    simp only [List.cons_append, settled, Bool.and_eq_true] at h
    exact ih h.2 rfl

theorem calm_spec {l : List Event} (h : calm l = true) {e : Event} (he : e ∈ l) :
    e.failed = false := by
  simp only [calm, List.all_eq_true, Bool.not_eq_true'] at h
  exact h e he

theorem calm_append {a b : List Event} (ha : calm a = true) (hb : calm b = true) :
    calm (a ++ b) = true := by
  simp only [calm, List.all_append, Bool.and_eq_true] at *
  exact ⟨ha, hb⟩

theorem walkFn_settled (conf : Conf) (fs : FS) (p : GoString) (err : Bool) :
    settled (walkFn conf fs p err).log = true := by
  rcases walkFn_cases conf fs p err with ⟨_, h⟩ | ⟨_, _, h⟩ | ⟨d, _, _, _, h⟩ | ⟨d, fs1, _, _, _, h⟩ <;>
    rw [h] <;> cases err <;> rfl

theorem walkFn_calm {conf : Conf} {fs : FS} {p : GoString} {err : Bool}
    (hok : (walkFn conf fs p err).ctl = Ctl.ret false) : calm (walkFn conf fs p err).log = true := by
  rcases walkFn_cases conf fs p err with ⟨_, h⟩ | ⟨_, _, h⟩ | ⟨d, _, _, _, h⟩ | ⟨d, fs1, _, _, _, h⟩
  · rw [h] at hok ⊢
    simp only [Ctl.ret.injEq] at hok
    subst hok
    rfl
  · rw [h] at hok; simp at hok
  · rw [h] at hok; simp at hok
  · rw [h] at hok ⊢
    simp only [Ctl.ret.injEq] at hok
    subst hok
    rfl

theorem walkLoop_calm (conf : Conf) (l : List GoString) (fs : FS)
    (hok : (walkLoop conf l fs).ctl = Ctl.ret false) : calm (walkLoop conf l fs).log = true := by
  induction l generalizing fs with
  | nil => rfl
  | cons p ps ih =>
    obtain ⟨hq, hrest, _, hlog⟩ := walkLoop_cons_ok hok
    rw [hlog]
    exact calm_append (walkFn_calm hq) (ih _ hrest)

theorem walkLoop_settled (conf : Conf) (l : List GoString) (fs : FS) :
    settled (walkLoop conf l fs).log = true := by
  induction l generalizing fs with
  | nil => rfl
  | cons p ps ih =>
    by_cases hq : (walkFn conf fs p (decide (p ∈ fs.walkErr))).ctl = Ctl.ret false
    · have hlog : (walkLoop conf (p :: ps) fs).log =
          (walkFn conf fs p (decide (p ∈ fs.walkErr))).log ++
          (walkLoop conf ps (walkFn conf fs p (decide (p ∈ fs.walkErr))).fs).log := by
        simp only [walkLoop, hq]
      rw [hlog]
      exact settled_append_of_calm (walkFn_calm hq) (ih _)
    · have hlog : (walkLoop conf (p :: ps) fs).log =
          (walkFn conf fs p (decide (p ∈ fs.walkErr))).log := by
        simp only [walkLoop]
        split
        · rfl
        · rfl
        · rename_i heq; exact absurd heq hq
      rw [hlog]
      exact walkFn_settled conf fs p _

theorem replaceSw_settled (conf : Conf) (fs : FS) : settled (replaceSw conf fs).log = true := by
  rcases replaceSw_cases conf fs with ⟨_, h⟩ | ⟨_, _, h⟩ | ⟨d, _, _, _, h⟩ | ⟨d, fs1, _, _, _, h⟩ <;>
    rw [h] <;> rfl

theorem replaceSw_calm {conf : Conf} {fs : FS} (hok : (replaceSw conf fs).ctl = Ctl.ret ()) :
    calm (replaceSw conf fs).log = true := by
  rcases replaceSw_cases conf fs with ⟨_, h⟩ | ⟨_, _, h⟩ | ⟨d, _, _, _, h⟩ | ⟨d, fs1, _, _, _, h⟩
  · rw [h]; rfl
  · rw [h] at hok; simp at hok
  · rw [h] at hok; simp at hok
  · rw [h]; rfl

theorem replaceConsole_settled (conf : Conf) (fs : FS) :
    settled (replaceConsole conf fs).log = true := by
  rw [replaceConsole_log]
  split
  · exact walkLoop_settled conf _ fs
  · rfl

theorem replaceConsole_calm {conf : Conf} {fs : FS}
    (hok : (replaceConsole conf fs).ctl = Ctl.ret ()) :
    calm (replaceConsole conf fs).log = true := by
  rw [replaceConsole_log]
  split
  · rename_i hex
    exact walkLoop_calm conf _ fs (replaceConsole_ret hok hex)
  · rfl

/-- Claim C9. Whenever a call of `replaceServerConf` reports an error (a read
of a template fails, a write of a resolved artifact fails, or the walk enters
the callback with a non-nil error) the run ends in `logger.Fatal` and does not
return; after that call the callback is never entered for another path, and
after a failed read or write no call is made at all. -/
theorem failure_is_fatal (conf : Conf) (fs : FS) (l1 l2 : List Event) (e : Event)
    (hlog : (replaceServerConf conf fs).log = l1 ++ e :: l2) (hfail : e.failed = true) :
    (∃ msg, (replaceServerConf conf fs).ctl = Ctl.fatal msg) ∧
    (∀ e2 ∈ l2, e2.isWalkFn = false) ∧
    (e.isWalkFn = false → l2 = []) := by
  constructor
  · cases hc : (replaceServerConf conf fs).ctl with
    | fatal msg => exact ⟨msg, rfl⟩
    | ret u =>
      exfalso
      obtain ⟨h1, h2, _, h4⟩ := replaceServerConf_ret hc
      have hcalm : calm (replaceServerConf conf fs).log = true := by
        rw [h4]
        exact calm_append (replaceSw_calm h1) (replaceConsole_calm h2)
      have he : e ∈ (replaceServerConf conf fs).log := by
        rw [hlog]; simp
      rw [calm_spec hcalm he] at hfail
      exact absurd hfail (by simp)
  · have hs : settled (replaceServerConf conf fs).log = true := by
      by_cases hsw : (replaceSw conf fs).ctl = Ctl.ret ()
      · have hl : (replaceServerConf conf fs).log =
            (replaceSw conf fs).log ++ (replaceConsole conf (replaceSw conf fs).fs).log := by
          unfold replaceServerConf
          simp only [hsw]
        rw [hl]
        exact settled_append_of_calm (replaceSw_calm hsw) (replaceConsole_settled conf _)
      · have hl : (replaceServerConf conf fs).log = (replaceSw conf fs).log := by
          unfold replaceServerConf
          simp only []
          split
          · rfl
          · rename_i u heq
            exact absurd heq hsw
        rw [hl]
        exact replaceSw_settled conf fs
    exact settled_spec hs hlog hfail

/-! ## Running `replaceServerConf` again -/

theorem ReadFile_eq_some_iff {fs : FS} {p d : GoString} :
    ReadFile fs p = some d ↔
      p ∉ fs.readErr ∧ p.getLast? ≠ some 47 ∧ fs.lookup p = some (Node.file d) := by
  constructor
  · intro h
    have hl := ReadFile_some h
    unfold ReadFile at h
    split at h
    · simp at h
    · rename_i h1
      refine ⟨h1, ?_, hl⟩
      intro h2
      unfold Stat at h
      rw [if_pos h2] at h
      cases h3 : fs.lookup (List.dropLast p) with
      | none => simp [h3] at h
      | some n => cases n <;> simp [h3] at h
  · rintro ⟨h1, h2, h3⟩
    unfold ReadFile Stat
    rw [if_neg h1, if_neg h2, h3]

theorem WriteFile_readErr {fs fs1 : FS} {p d : GoString} {perm : Nat}
    (h : WriteFile fs p d perm = some fs1) : fs1.readErr = fs.readErr := by
  rw [WriteFile_some h]

theorem walkLoop_readErr (conf : Conf) (l : List GoString) (fs : FS) :
    (walkLoop conf l fs).fs.readErr = fs.readErr := by
  induction l generalizing fs with
  | nil => rfl
  | cons p ps ih =>
    have hp : (walkFn conf fs p (decide (p ∈ fs.walkErr))).fs.readErr = fs.readErr := by
      rcases walkFn_fs conf fs p (decide (p ∈ fs.walkErr)) with h1 | ⟨_, d, _, hw⟩
      · rw [h1]
      · exact WriteFile_readErr hw
    rcases walkLoop_fs_cons conf p ps fs with h1 | h1
    · rw [h1, hp]
    · rw [h1, ih, hp]

theorem replaceServerConf_readErr (conf : Conf) (fs : FS) :
    (replaceServerConf conf fs).fs.readErr = fs.readErr := by
  have hsw : (replaceSw conf fs).fs.readErr = fs.readErr := by
    rcases replaceSw_fs conf fs with h | ⟨d, _, hw⟩
    · rw [h]
    · exact WriteFile_readErr hw
  rcases replaceServerConf_fs conf fs with h | h
  · rw [h, hsw]
  · rw [h, replaceConsole_fs]
    split
    · unfold Walk
      rw [walkLoop_readErr, hsw]
    · exact hsw

/-- A block of the fixed file that completes after reading `t` has written
the three-placeholder resolution of `t`. -/
theorem replaceSw_ret_lookup {conf : Conf} {fs : FS} {t : GoString}
    (hread : ReadFile fs swTplPath = some t) (hret : (replaceSw conf fs).ctl = Ctl.ret ()) :
    (replaceSw conf fs).fs.lookup (TrimSuffix swTplPath tplSuffix)
      = some (Node.file (resolveSw conf t)) := by
  rcases replaceSw_cases conf fs with ⟨h0, _⟩ | ⟨_, _, h⟩ | ⟨d, _, _, _, h⟩ | ⟨d, fs1, _, hr, hw, h⟩
  · rw [ReadFile_IsExist hread] at h0; exact absurd h0 (by simp)
  · rw [h] at hret; simp at hret
  · rw [h] at hret; simp at hret
  · rw [hread] at hr
    simp only [Option.some.injEq] at hr
    subst hr
    rw [h]
    exact WriteFile_lookup_same hw

/-- The file system is one that `replaceServerConf` has already brought up to
date: the artifact of every template that can be read holds its resolution. -/
theorem replaceServerConf_fixed {conf : Conf} {fs : FS}
    (hsw : ∀ d, ReadFile fs swTplPath = some d →
      fs.lookup (TrimSuffix swTplPath tplSuffix) = some (Node.file (resolveSw conf d)))
    (hwalk : IsExist fs consoleDist = true → ∀ p ∈ fs.entries.map Prod.fst,
      HasPrefix p consoleDist = true → HasSuffix p tplSuffix = true →
      ∀ d, ReadFile fs p = some d →
        fs.lookup (TrimSuffix p tplSuffix) = some (Node.file (resolveConsole conf d))) :
    (replaceServerConf conf fs).fs = fs := by
  have h1 : (replaceSw conf fs).fs = fs := by
    rcases replaceSw_fs conf fs with h | ⟨d, hr, hw⟩
    · exact h
    · exact WriteFile_noop hw (hsw d hr)
  have hloop : ∀ l : List GoString, (∀ p ∈ l, HasSuffix p tplSuffix = true →
      ∀ d, ReadFile fs p = some d →
        fs.lookup (TrimSuffix p tplSuffix) = some (Node.file (resolveConsole conf d))) →
      (walkLoop conf l fs).fs = fs := by
    intro l
    induction l with
    | nil => intro _; rfl
    | cons p ps ih =>
      intro hl
      have hp : (walkFn conf fs p (decide (p ∈ fs.walkErr))).fs = fs := by
        rcases walkFn_fs conf fs p (decide (p ∈ fs.walkErr)) with h | ⟨hs, d, hr, hw⟩
        · exact h
        · exact WriteFile_noop hw (hl p (List.mem_cons_self _ _) hs d hr)
      rcases walkLoop_fs_cons conf p ps fs with h | h
      · rw [h, hp]
      · rw [h, hp]
        exact ih (fun r hr => hl r (List.mem_cons_of_mem _ hr))
  have h2 : (replaceConsole conf fs).fs = fs := by
    rw [replaceConsole_fs]
    split
    · rename_i hex
      apply hloop
      intro p hp hs d hr
      rcases mem_walkPaths.mp hp with hroot | ⟨hk, hpre⟩
      · rw [hroot, HasSuffix_consoleDist] at hs
        exact absurd hs (by simp)
      · exact hwalk hex p hk hpre hs d hr
    · rfl
  rcases replaceServerConf_fs conf fs with h | h
  · rw [h, h1]
  · rw [h, h1, h2]

/-- After a run that returned normally on a deployment without nested
templates, every artifact holds the resolution of its template. -/
theorem replaceServerConf_twice {conf : Conf} {fs : FS}
    (hret : (replaceServerConf conf fs).ctl = Ctl.ret ())
    (hflat : ∀ p ∈ fs.entries.map Prod.fst, HasPrefix p consoleDist = true →
      HasSuffix p tplSuffix = true → HasSuffix (TrimSuffix p tplSuffix) tplSuffix = false) :
    (replaceServerConf conf (replaceServerConf conf fs).fs).fs = (replaceServerConf conf fs).fs := by
  obtain ⟨hswret, hcret, hfs, _⟩ := replaceServerConf_ret hret
  -- a template is never the resolved path of another one
  have hnot : ∀ q, HasSuffix q tplSuffix = true → ∀ p ∈ fs.entries.map Prod.fst,
      HasPrefix p consoleDist = true → HasSuffix p tplSuffix = true →
      TrimSuffix p tplSuffix ≠ q := by
    intro q hq p hp hpre hs heq
    have := hflat p hp hpre hs
    rw [heq, hq] at this
    exact absurd this (by simp)
  have hswne : ∀ q, HasSuffix q tplSuffix = true → q ≠ TrimSuffix swTplPath tplSuffix := by
    intro q hq heq
    rw [heq] at hq
    revert hq
    decide
  -- templates are read in the second run as in the first
  have hread : ∀ q d, HasSuffix q tplSuffix = true →
      ReadFile (replaceServerConf conf fs).fs q = some d → ReadFile fs q = some d := by
    intro q d hq h
    rw [ReadFile_eq_some_iff] at h ⊢
    rw [replaceServerConf_readErr, replaceServerConf_lookup conf fs (hswne q hq) (hnot q hq)] at h
    exact h
  apply replaceServerConf_fixed
  · intro d hd
    have hd0 := hread swTplPath d (by decide) hd
    have h1 := replaceSw_ret_lookup hd0 hswret
    rw [hfs, replaceConsole_lookup_outside conf _ swPath_not_below_consoleDist]
    exact h1
  · intro hex p hp hpre hs d hd
    have hd0 := hread p d hs hd
    have hex0 : IsExist fs consoleDist = true := by
      rw [IsExist_consoleDist] at hex ⊢
      rw [replaceServerConf_lookup conf fs (by decide)] at hex
      · exact hex
      · intro r hr hrpre hrs heq
        have h3 := consoleDist_prefix_TrimSuffix hrpre hrs
        rw [heq] at h3
        revert h3
        decide
    have hpfs : p ∈ fs.entries.map Prod.fst := by
      have hex1 : IsExist (replaceSw conf fs).fs consoleDist = true := by
        rw [IsExist_consoleDist_replaceSw]; exact hex0
      rw [hfs, replaceConsole_fs, if_pos hex1] at hp
      have hk : p ∈ (replaceSw conf fs).fs.entries.map Prod.fst := by
        rcases walkLoop_keys conf _ _ p hp with h | ⟨r, hr, hrs, heq⟩
        · exact h
        · exfalso
          rcases mem_walkPaths.mp hr with hroot | ⟨hrk, hrpre⟩
          · rw [hroot, HasSuffix_consoleDist] at hrs
            exact absurd hrs (by simp)
          · rcases replaceSw_keys conf fs r hrk with h4 | h4
            · rw [h4, swPath_not_below_consoleDist] at hrpre
              exact absurd hrpre (by simp)
            · exact hnot p hs r h4 hrpre hrs heq.symm
      rcases replaceSw_keys conf fs p hk with h4 | h4
      · exact absurd h4 (hswne p hs)
      · exact h4
    obtain ⟨d1, hd1, _, hfin⟩ := replaceServerConf_complete hex0 hret p hpfs hpre hs
    have hd2 := ReadFile_some hd0
    rw [hd1] at hd2
    simp only [Option.some.injEq, Node.file.injEq] at hd2
    rw [← hd2]
    exact hfin

/-! ## Idempotence -/

/-- Claim C4, as amended. When `replaceServerConf` returns normally on a file
system in which no template below `console/dist/` has a resolved path that is
itself a template (a path ending in `.tpl.tpl`), a second run with the same
configuration leaves the file system exactly as the first run left it. -/
theorem second_run_changes_nothing (conf : Conf) (fs : FS)
    (hret : (replaceServerConf conf fs).ctl = Ctl.ret ())
    (hflat : ∀ p ∈ fs.entries.map Prod.fst, HasPrefix p consoleDist = true →
      HasSuffix p tplSuffix = true → HasSuffix (TrimSuffix p tplSuffix) tplSuffix = false) :
    (replaceServerConf conf (replaceServerConf conf fs).fs).fs = (replaceServerConf conf fs).fs :=
  replaceServerConf_twice hret hflat

/-- Witness of `second_run_changes_nothing`: the sample deployment. -/
theorem second_run_changes_nothing_witness :
    (replaceServerConf exConf exFS).ctl = Ctl.ret () ∧
    (∀ p ∈ exFS.entries.map Prod.fst, HasPrefix p consoleDist = true →
      HasSuffix p tplSuffix = true → HasSuffix (TrimSuffix p tplSuffix) tplSuffix = false) ∧
    (replaceServerConf exConf (replaceServerConf exConf exFS).fs).fs
      = (replaceServerConf exConf exFS).fs :=
  ⟨by decide, by decide, second_run_changes_nothing exConf exFS (by decide) (by decide)⟩

/-- Claim C4 fails as stated: on the nested deployment both runs return
normally, the first leaves `x` in `console/dist/a` and the second replaces it
by `y`. -/
theorem second_run_changes_artifact :
    (replaceServerConf exConf nestedFS).ctl = Ctl.ret () ∧
    (replaceServerConf exConf nestedFS).fs.lookup (bytes "console/dist/a")
      = some (Node.file (bytes "x")) ∧
    (replaceServerConf exConf (replaceServerConf exConf nestedFS).fs).ctl = Ctl.ret () ∧
    (replaceServerConf exConf (replaceServerConf exConf nestedFS).fs).fs.lookup
      (bytes "console/dist/a") = some (Node.file (bytes "y")) := by
  decide

/-- Witness of `absent_targets_are_skipped`: a deployment with neither target. -/
theorem absent_targets_are_skipped_witness :
    IsExist bareFS swTplPath = false ∧ IsExist bareFS consoleDist = false ∧
    (replaceServerConf exConf bareFS).ctl = Ctl.ret () ∧
    (replaceServerConf exConf bareFS).log = [] ∧
    (replaceServerConf exConf bareFS).fs = bareFS :=
  ⟨by decide, by decide,
    (absent_targets_are_skipped exConf bareFS).2.2 (by decide) (by decide)⟩

/-- Witness of `failure_is_fatal`: the first walked template cannot be read,
the run ends in `logger.Fatal` and the second template is not resolved. -/
theorem failure_is_fatal_witness :
    (replaceServerConf exConf brokenFS).log =
      [ Event.walkFn (bytes "console/dist/") false,
        Event.walkFn (bytes "console/dist/a.js.tpl") false ] ++
      Event.readFile (bytes "console/dist/a.js.tpl") false :: [] ∧
    (replaceServerConf exConf brokenFS).fs.lookup (bytes "console/dist/b.js") = none ∧
    ∃ msg, (replaceServerConf exConf brokenFS).ctl = Ctl.fatal msg :=
  ⟨by decide, by decide,
    (failure_is_fatal exConf brokenFS
      [ Event.walkFn (bytes "console/dist/") false,
        Event.walkFn (bytes "console/dist/a.js.tpl") false ] [] (Event.readFile (bytes "console/dist/a.js.tpl") false)
      (by decide) (by decide)).1⟩

/-! ## Claims on boot and shutdown -/

theorem runCalls_returned (w : World) (l : List Call)
    (h : (runCalls w l).2 = Ending.returned) : (runCalls w l).1 = l := by
  induction l with
  | nil => rfl
  | cons c cs ih =>
    simp only [runCalls] at h ⊢
    split at h
    · simp at h
    · rename_i hc
      simp only [hc]
      simp only [Bool.false_eq_true, if_false, List.cons.injEq, true_and]
      exact ih h

theorem runCalls_mem_last (w : World) (l : List Call) (c : Call)
    (h : c ∈ (runCalls w (l ++ [c])).1) (hc : c ∉ l) :
    (runCalls w (l ++ [c])).1 = l ++ [c] := by
  induction l with
  | nil =>
    simp only [List.nil_append, runCalls]
    split <;> rfl
  | cons d ds ih =>
    have hd : c ≠ d := fun heq => hc (heq ▸ List.mem_cons_self _ _)
    have hds : c ∉ ds := fun hm => hc (List.mem_cons_of_mem _ hm)
    rw [List.cons_append] at h ⊢
    rw [runCalls] at h ⊢
    by_cases hstop : stopsAt w d = true
    · rw [if_pos hstop] at h
      simp only [List.mem_singleton] at h
      exact absurd h hd
    · rw [if_neg hstop] at h ⊢
      simp only [List.mem_cons] at h
      rcases h with h | h
      · exact absurd h hd
      · simp only [List.cons.injEq, true_and]
        exact ih h hds

theorem runCalls_subset (w : World) (l : List Call) : ∀ c ∈ (runCalls w l).1, c ∈ l := by
  induction l with
  | nil => intro c hc; simp [runCalls] at hc
  | cons d ds ih =>
    intro c hc
    simp only [runCalls] at hc
    split at hc
    · simp only [List.mem_singleton] at hc
      rw [hc]; exact List.mem_cons_self _ _
    · simp only [List.mem_cons] at hc
      rcases hc with hc | hc
      · rw [hc]; exact List.mem_cons_self _ _
      · exact List.mem_cons_of_mem _ (ih c hc)

/-- Claim C6. On every run in which `server.ListenAndServe` is called, the
calls made up to it are exactly those of `init` followed by those of `main`,
so that `model.LoadConf`, `replaceServerConf`, `service.ConnectDB`,
`cron.Start`, `controller.MapRoutes`, `signal.Notify` and
`server.ListenAndServe` are called in this order, each once. -/
theorem boot_order (w : World) (h : Call.ListenAndServe ∈ (boot w).1) :
    List.Sublist
      [ Call.LoadConf, Call.replaceServerConf, Call.ConnectDB, Call.cronStart,
        Call.MapRoutes, Call.signalNotify [Signal.SIGINT, Signal.SIGQUIT, Signal.SIGTERM],
        Call.ListenAndServe ]
      (boot w).1 ∧
    (boot w).1.count Call.LoadConf = 1 ∧
    (boot w).1.count Call.replaceServerConf = 1 ∧
    (boot w).1.count Call.ConnectDB = 1 ∧
    (boot w).1.count Call.cronStart = 1 ∧
    (boot w).1.count Call.MapRoutes = 1 ∧
    (boot w).1.count (Call.signalNotify [Signal.SIGINT, Signal.SIGQUIT, Signal.SIGTERM]) = 1 ∧
    (boot w).1.count Call.ListenAndServe = 1 := by
  have hinit_sub := runCalls_subset w
    [ Call.randSeed, Call.logSetLevel (bytes "warn"), Call.logNewLogger, Call.LoadConf,
      Call.LoadMarkdown, Call.i18nLoad, Call.themeLoad, Call.replaceServerConf,
      Call.ginSetMode (decide (bytes "dev" = w.conf.RuntimeMode)), Call.ginDefaultWriter ]
  have hinit : (init w).2 = Ending.returned ∧ (init w).1 =
      [ Call.randSeed, Call.logSetLevel (bytes "warn"), Call.logNewLogger, Call.LoadConf,
        Call.LoadMarkdown, Call.i18nLoad, Call.themeLoad, Call.replaceServerConf,
        Call.ginSetMode (decide (bytes "dev" = w.conf.RuntimeMode)), Call.ginDefaultWriter ] := by
    cases hi : (init w).2 with
    | returned => exact ⟨rfl, runCalls_returned w _ hi⟩
    | exited =>
      exfalso
      unfold boot at h
      rw [hi] at h
      simp only [] at h
      have := hinit_sub _ h
      simp at this
  obtain ⟨hi2, hi1⟩ := hinit
  have hboot : (boot w).1 = (init w).1 ++ (main w).1 := by
    unfold boot
    rw [hi2]
  have hmem : Call.ListenAndServe ∈ (main w).1 := by
    rw [hboot, List.mem_append] at h
    rcases h with h | h
    · rw [hi1] at h
      simp at h
    · exact h
  have hrun : (runCalls w
      ([ Call.ConnectDB, Call.UpgradePerform, Call.cronStart, Call.MapRoutes,
         Call.signalNotify [Signal.SIGINT, Signal.SIGQUIT, Signal.SIGTERM],
         Call.goSignalHandler, Call.logInfof (bytes "Pipe (v%s) is running [%s]") ] ++
       [Call.ListenAndServe])).1 =
      [ Call.ConnectDB, Call.UpgradePerform, Call.cronStart, Call.MapRoutes,
         Call.signalNotify [Signal.SIGINT, Signal.SIGQUIT, Signal.SIGTERM],
         Call.goSignalHandler, Call.logInfof (bytes "Pipe (v%s) is running [%s]") ] ++
       [Call.ListenAndServe] := by
    apply runCalls_mem_last
    · unfold main at hmem
      simp only [handleSignal, List.cons_append, List.nil_append] at hmem ⊢
      split at hmem
      · exact hmem
      · split at hmem
        · unfold Fatalf at hmem
          simp only [List.mem_append, List.mem_singleton] at hmem
          rcases hmem with hmem | hmem
          · exact hmem
          · exact absurd hmem (by simp)
        · exact hmem
    · simp
  have hmain : ∃ tail, (main w).1 =
      [ Call.ConnectDB, Call.UpgradePerform, Call.cronStart, Call.MapRoutes,
         Call.signalNotify [Signal.SIGINT, Signal.SIGQUIT, Signal.SIGTERM],
         Call.goSignalHandler, Call.logInfof (bytes "Pipe (v%s) is running [%s]"),
         Call.ListenAndServe ] ++ tail ∧ ∀ c ∈ tail, ∃ msg, c = Call.logFatalf msg := by
    unfold main
    simp only [handleSignal, List.cons_append, List.nil_append] at hrun ⊢
    split
    · exact ⟨[], by simp [hrun], by simp⟩
    · split
      · unfold Fatalf
        rw [hrun]
        exact ⟨_, rfl, by simp⟩
      · exact ⟨[], by simp [hrun], by simp⟩
  obtain ⟨tail, hm, htail⟩ := hmain
  have hcount : ∀ c : Call, (∀ msg, c ≠ Call.logFatalf msg) → tail.count c = 0 := by
    intro c hc
    rw [List.count_eq_zero]
    intro hmem2
    obtain ⟨msg, hmsg⟩ := htail c hmem2
    exact hc msg hmsg
  rw [hboot, hi1, hm]
  generalize decide (bytes "dev" = w.conf.RuntimeMode) = b
  refine ⟨?_, ?_, ?_, ?_, ?_, ?_, ?_, ?_⟩
  · refine List.Sublist.trans ?_
      ((List.Sublist.refl _).append (List.sublist_append_left _ tail))
    cases b <;> decide
  all_goals
    rw [List.count_append, List.count_append, hcount _ (by simp)]
    cases b <;> decide

/-- Witness of `boot_order`: a world in which every collaborator returns. -/
theorem boot_order_witness :
    Call.ListenAndServe ∈ (boot closedWorld).1 ∧
    List.Sublist
      [ Call.LoadConf, Call.replaceServerConf, Call.ConnectDB, Call.cronStart,
        Call.MapRoutes, Call.signalNotify [Signal.SIGINT, Signal.SIGQUIT, Signal.SIGTERM],
        Call.ListenAndServe ]
      (boot closedWorld).1 :=
  ⟨by decide, (boot_order closedWorld (by decide)).1⟩

/-- Claim C2 against the code: when every collaborator returns and
`server.ListenAndServe` returns `http.ErrServerClosed` because the shutdown
goroutine closed the server, `main` calls `logger.Fatalf` and ends on the
fatal path. -/
theorem main_fatal_on_server_closed :
    closedWorld.serve = some ServeErr.ErrServerClosed ∧
    (main closedWorld).1 =
      [ Call.ConnectDB, Call.UpgradePerform, Call.cronStart, Call.MapRoutes,
        Call.signalNotify [Signal.SIGINT, Signal.SIGQUIT, Signal.SIGTERM],
        Call.goSignalHandler,
        Call.logInfof (bytes "Pipe (v%s) is running [%s]"),
        Call.ListenAndServe,
        Call.logFatalf (bytes "listen and serve failed: http: Server closed") ] ∧
    (main closedWorld).2 = Ending.exited := by
  decide

theorem afterServe_closedWorld :
    afterServe { closedWorld with serve := some ServeErr.ErrServerClosed } =
      [Call.logFatalf (bytes "listen and serve failed: http: Server closed")] := by
  decide

/-- Claim C3 against the code. For every signal and every outcome of
`server.Close()`: when `main` goes on right after the goroutine has closed the
server, the process ends in `logger.Fatalf` of `main` (line 86), and neither
`service.DisconnectDB()` nor `os.Exit(0)` is called; the sequence
`server.Close()`, `service.DisconnectDB()`, `os.Exit(0)` is only completed
when the goroutine makes all its remaining calls before `main` goes on. -/
theorem shutdown_cut_short_by_main (s : Signal) (closeErr : Option GoString) :
    shutdown closedWorld s closeErr 0 =
      [ Call.logInfof (bytes "got signal [" ++ s.text ++ bytes "], exiting pipe now"),
        Call.serverClose,
        Call.logFatalf (bytes "listen and serve failed: http: Server closed") ] ∧
    Call.DisconnectDB ∉ shutdown closedWorld s closeErr 0 ∧
    Call.osExit 0 ∉ shutdown closedWorld s closeErr 0 ∧
    shutdown closedWorld s closeErr 4 = signalHandler s closeErr := by
  have h0 : shutdown closedWorld s closeErr 0 =
      [ Call.logInfof (bytes "got signal [" ++ s.text ++ bytes "], exiting pipe now"),
        Call.serverClose,
        Call.logFatalf (bytes "listen and serve failed: http: Server closed") ] := by
    unfold shutdown
    rw [afterServe_closedWorld]
    cases closeErr <;> simp [signalHandler, untilExit, terminates]
  refine ⟨h0, ?_, ?_, ?_⟩
  · rw [h0]; simp
  · rw [h0]; simp
  · unfold shutdown
    rw [afterServe_closedWorld]
    cases closeErr <;> simp [signalHandler, untilExit, terminates]

end Pipe
